import Mathlib

/-!
# gomarkdoc: documentation comments to the block model

A shallow embedding of `lang/doc.go` and `lang/text.go`: the cross-reference
resolver (`getImportType`, `getIdentifierType`), the inline conversion
(`textBlocks`) and the block-building pass of `NewDoc`; and of the template
table handling of `NewRenderer` in `renderer.go`.

Go strings are Lean `String`s. The comment tree of `go/doc/comment` and the
package metadata of `go/doc` are inputs; only the fields the code reads are
kept.
-/

set_option autoImplicit false

namespace Gomarkdoc

/-! ## Inputs: `go/doc/comment` and `go/doc` -/

namespace comment

mutual
/-- The inline nodes of `go/doc/comment` (`comment.Text`). `Other` stands for
any value of the interface that the type switch of `textBlocks` has no case
for. -/
inductive Text where
  | Plain (s : String)
  | Italic (s : String)
  | Link (l : Link)
  | DocLink (l : DocLink)
  | Other
/-- The hyperlink node `comment.Link`. -/
inductive Link where
  | mk (Auto : Bool) (Text : List Text) (URL : String)
/-- The documentation link node `comment.DocLink`. -/
inductive DocLink where
  | mk (Text : List Text) (ImportPath Recv Name : String)
end

/-- Field `Text` of a `comment.Link`. -/
def Link.Text : Link → List Text
  | .mk _ t _ => t

/-- Field `URL` of a `comment.Link`. -/
def Link.URL : Link → String
  | .mk _ _ u => u

/-- Field `Text` of a `comment.DocLink`. -/
def DocLink.Text : DocLink → List Text
  | .mk t _ _ _ => t

/-- Field `ImportPath` of a `comment.DocLink`. -/
def DocLink.ImportPath : DocLink → String
  | .mk _ p _ _ => p

/-- Field `Recv` of a `comment.DocLink`. -/
def DocLink.Recv : DocLink → String
  | .mk _ _ r _ => r

/-- Field `Name` of a `comment.DocLink`. -/
def DocLink.Name : DocLink → String
  | .mk _ _ _ n => n

mutual
/-- The block nodes of `go/doc/comment` (`comment.Block`). `Other` stands for
any value of the interface that the type switch of `NewDoc` has no case for. -/
inductive Block where
  | Code (Text : String)
  | Heading (Text : List Text)
  | List (ForceBlankBefore ForceBlankBetween : Bool) (Items : List ListItem)
  | Paragraph (Text : List Text)
  | Other
/-- One item of a list: `comment.ListItem`. -/
inductive ListItem where
  | mk (Number : String) (Content : List Block)
end

/-- Field `Number` of a `comment.ListItem`. -/
def ListItem.Number : ListItem → String
  | .mk n _ => n

/-- Field `Content` of a `comment.ListItem`. -/
def ListItem.Content : ListItem → List Block
  | .mk _ c => c

/-- The library method `(*List).BlankBetween`: forced, or some item whose
content is not exactly one element. -/
def BlankBetween (ForceBlankBetween : Bool) (Items : List ListItem) : Bool :=
  ForceBlankBetween || Items.any (fun item => item.Content.length != 1)

/-- The library method `(*List).BlankBefore`. -/
def BlankBefore (ForceBlankBefore ForceBlankBetween : Bool) (Items : List ListItem) : Bool :=
  ForceBlankBefore || BlankBetween ForceBlankBetween Items

end comment

namespace doc

/-- A constant or variable declaration of `go/doc` (`doc.Value`): its names. -/
structure Value where
  Names : List String

/-- A function of `go/doc` (`doc.Func`): receiver and name. -/
structure Func where
  Recv : String
  Name : String

/-- A type of `go/doc` (`doc.Type`): its name. -/
structure TypeDecl where
  Name : String

/-- Package metadata of `go/doc` (`doc.Package`). `LookupSym` is the symbol
lookup of the package's comment parser, `pkg.Parser().LookupSym`. -/
structure Package where
  ImportPath : String
  Consts : List Value
  Vars : List Value
  Funcs : List Func
  Types : List TypeDecl
  LookupSym : String → String → Bool

end doc

/-! ## The Go library function `strings.Replace` -/

namespace strings

/-- Replace the first occurrence of `old` in a character sequence by `new`,
scanning from the left. -/
def replaceFirst (old new : List Char) : List Char → List Char
  | [] => if old = [] then new else []
  | c :: t =>
    if old.isPrefixOf (c :: t) then new ++ (c :: t).drop old.length
    else c :: replaceFirst old new t

/-- The call `strings.Replace(s, old, new, 1)`: `s` with its first occurrence
of `old` replaced by `new`, and `s` itself when `old` does not occur. -/
def Replace1 (s old new : String) : String :=
  ⟨replaceFirst old.data new.data s.data⟩

end strings

/-! ## `renderer.go` -/

/-- A Go `map[string]string` as the list of its entries, in the order a
`range` loop visits them. -/
abbrev StringMap := List (String × String)

/-- The lookup `m[key]` with its presence flag. -/
def StringMap.get : StringMap → String → Option String
  | [], _ => none
  | (k, v) :: rest, key => if k = key then some v else StringMap.get rest key

/-- The assignment `m[key] = val`: the entry of `key` is replaced, or added
when the map has none. -/
def StringMap.set : StringMap → String → String → StringMap
  | [], key, val => [(key, val)]
  | (k, v) :: rest, key, val =>
    if k = key then (k, val) :: rest else (k, v) :: StringMap.set rest key val

/-- The struct `Renderer`. The field `tmpl` holds the names and texts of the
templates parsed so far (empty for nil); `φ` is the type `format.Format`. -/
structure Renderer (φ : Type) where
  templateOverrides : StringMap
  tmpl : List (String × String)
  format : φ

/-- The function type `RendererOption`: an option updates the renderer or
returns an error. -/
abbrev RendererOption (φ : Type) := Renderer φ → Except String (Renderer φ)

/-- The option `WithTemplateOverride(name, tmpl)`. -/
def WithTemplateOverride {φ : Type} (name tmpl : String) : RendererOption φ :=
  fun renderer =>
    Except.ok { renderer with templateOverrides := renderer.templateOverrides.set name tmpl }

/-- The option `WithFormat(format)`. -/
def WithFormat {φ : Type} (format : φ) : RendererOption φ :=
  fun renderer => Except.ok { renderer with format := format }

/-- The loop over `opts` in `NewRenderer`, stopping at the first error. -/
def applyOpts {φ : Type} : Renderer φ → List (RendererOption φ) → Except String (Renderer φ)
  | renderer, [] => Except.ok renderer
  | renderer, opt :: rest =>
    match opt renderer with
    | Except.error err => Except.error err
    | Except.ok renderer => applyOpts renderer rest

/-- The inner loop `for template := range templates` of `NewRenderer`: its
`continue` goes on with this same loop, so the loop changes nothing. -/
def scanTemplates (override : String) : StringMap → Unit
  | [] => ()
  | (template, _) :: rest =>
    if template = override then scanTemplates override rest
    else scanTemplates override rest

/-- The loop over `renderer.templateOverrides` in `NewRenderer`, on the
package-level table `templates`: after the inner loop the assignment
`templates[override] = val` is reached for every override. -/
def addOverrides : StringMap → StringMap → StringMap
  | [], templates => templates
  | (override, val) :: rest, templates =>
    let _ := scanTemplates override templates
    addOverrides rest (templates.set override val)

/-- The loop over `templates` in `NewRenderer` that parses every template,
using the override text when there is one. `parseOk` tells whether the
template library accepts a text. -/
def parseTemplates (parseOk : String → String → Bool) (overrides : StringMap) :
    StringMap → List (String × String) → Except String (List (String × String))
  | [], tmpl => Except.ok tmpl
  | (name, tmplStr) :: rest, tmpl =>
    let tmplStr :=
      match overrides.get name with
      | some val => val
      | none => tmplStr
    if parseOk name tmplStr then parseTemplates parseOk overrides rest (tmpl ++ [(name, tmplStr)])
    else Except.error name

/-- The function `NewRenderer`, on the package-level table `templates`: its
result and the table afterwards. `defaultFormat` is the GitHub flavoured
markdown format. -/
def NewRenderer {φ : Type} (parseOk : String → String → Bool) (defaultFormat : φ)
    (templates : StringMap) (opts : List (RendererOption φ)) :
    Except String (Renderer φ) × StringMap :=
  let renderer : Renderer φ := ⟨[], [], defaultFormat⟩
  match applyOpts renderer opts with
  | Except.error err => (Except.error err, templates)
  | Except.ok renderer =>
    let templates := addOverrides renderer.templateOverrides templates
    match parseTemplates parseOk renderer.templateOverrides templates renderer.tmpl with
    | Except.error err => (Except.error err, templates)
    | Except.ok tmpl => (Except.ok { renderer with tmpl := tmpl }, templates)

/-! ## `lang/text.go` -/

namespace lang

/-- The string type `TextKind`. -/
abbrev TextKind := String

/-- Kind of a plain span. -/
def PlainText : TextKind := "plain"
/-- Kind of an italic span. -/
def ItalicText : TextKind := "italic"
/-- Kind of a hyperlink span. -/
def LinkText : TextKind := "link"
/-- Kind of a cross-reference span. -/
def DocLinkText : TextKind := "docLink"

mutual
/-- The struct `TextBlock`; `inner` is a pointer and may be nil. -/
inductive TextBlock where
  | mk (kind : TextKind) (text path href : String) (inner : Option Text)
/-- The struct `Text`. -/
inductive Text where
  | mk (textBlocks : List TextBlock)
end

/-- The constructor `NewText`. -/
def NewText (textBlocks : List TextBlock) : Text := Text.mk textBlocks

/-- The constructor `NewTextBlock`: only `kind` and `text` are set. -/
def NewTextBlock (kind : TextKind) (text : String) : TextBlock :=
  TextBlock.mk kind text "" "" none

/-- The constructor `NewLinkTextBlock`: `text` stays empty. -/
def NewLinkTextBlock (kind : TextKind) (inner : List TextBlock) (path href : String) : TextBlock :=
  TextBlock.mk kind "" path href (some (NewText inner))

/-- The accessor `(*TextBlock).Kind`. -/
def TextBlock.Kind : TextBlock → TextKind
  | .mk k _ _ _ _ => k

/-- The accessor `(*TextBlock).Text`. -/
def TextBlock.Text : TextBlock → String
  | .mk _ t _ _ _ => t

/-- The accessor `(*TextBlock).Path`. -/
def TextBlock.Path : TextBlock → String
  | .mk _ _ p _ _ => p

/-- The accessor `(*TextBlock).Href`. -/
def TextBlock.Href : TextBlock → String
  | .mk _ _ _ h _ => h

/-- The accessor `(*TextBlock).Inner`. -/
def TextBlock.Inner : TextBlock → Option lang.Text
  | .mk _ _ _ _ i => i

/-- The accessor `(*Text).TextBlocks`. -/
def Text.TextBlocks : Text → List TextBlock
  | .mk bs => bs

/-! ## `lang/doc.go`: the cross-reference resolver -/

/-- The inner loop `for _, constName := range constIdent.Names` of
`getIdentifierType`: whether it reaches its `return`. -/
def namesMatch (name : String) : List String → Bool
  | [] => false
  | constName :: rest => if name = constName then true else namesMatch name rest

/-- The loop over `pkg.Consts` (and the same loop over `pkg.Vars`) of
`getIdentifierType`: whether it reaches its `return`. -/
def valuesMatch (name : String) : List doc.Value → Bool
  | [] => false
  | constIdent :: rest =>
    if namesMatch name constIdent.Names then true else valuesMatch name rest

/-- The loop over `pkg.Funcs` of `getIdentifierType`. -/
def funcsMatch (recv name : String) : List doc.Func → Bool
  | [] => false
  | funcIdent :: rest =>
    if funcIdent.Recv = recv ∧ funcIdent.Name = name then true
    else funcsMatch recv name rest

/-- The loop over `pkg.Types` of `getIdentifierType`. -/
def typesMatch (name : String) : List doc.TypeDecl → Bool
  | [] => false
  | typeIdent :: rest =>
    if typeIdent.Name = name then true else typesMatch name rest

/-- The function `getIdentifierType`: four loops in sequence, each returning at its first
match. -/
def getIdentifierType (link : comment.DocLink) (pkg : doc.Package) : String :=
  if valuesMatch link.Name pkg.Consts then "const"
  else if valuesMatch link.Name pkg.Vars then "var"
  else if funcsMatch link.Recv link.Name pkg.Funcs then "func"
  else if typesMatch link.Name pkg.Types then "type"
  else ""

/-- The loop over `allPackages` of `getImportType`. -/
def scanPackages (link : comment.DocLink) : List doc.Package → String
  | [] => ""
  | pkg :: rest =>
    if pkg.ImportPath = link.ImportPath ∧ pkg.LookupSym link.Recv link.Name = true then
      getIdentifierType link pkg
    else scanPackages link rest

/-- The function `getImportType`. -/
def getImportType (link : comment.DocLink) (currentPkg : doc.Package)
    (allPackages : List doc.Package) : String :=
  if link.ImportPath = "" then getIdentifierType link currentPkg
  else scanPackages link allPackages

/-! ## `lang/doc.go`: inline conversion -/

/-- The anchor computed for a documentation link in `textBlocks`:
`href := importType`, then the receiver when non-empty, then the name. -/
def docLinkHref (importType : String) (line : comment.DocLink) : String :=
  let href := importType
  let href := if line.Recv ≠ "" then href ++ (" " ++ line.Recv) else href
  href ++ (" " ++ line.Name)

/-- The path computed for a documentation link in `textBlocks`. -/
def docLinkPath (module : String) (currentPkg : doc.Package) (line : comment.DocLink) : String :=
  let replaceStr := if line.ImportPath = "" then currentPkg.ImportPath else line.ImportPath
  strings.Replace1 replaceStr module ""

mutual
/-- The function `textBlocks`: the loop over `text`. -/
def textBlocks (module : String) (currentPkg : doc.Package) (allPackages : List doc.Package) :
    List comment.Text → List TextBlock
  | [] => []
  | line :: rest =>
    lineBlocks module currentPkg allPackages line ++
      textBlocks module currentPkg allPackages rest
/-- The type switch in the body of the loop of `textBlocks`: the spans one
node appends to `blocks`. -/
def lineBlocks (module : String) (currentPkg : doc.Package) (allPackages : List doc.Package) :
    comment.Text → List TextBlock
  | .Plain line => [NewTextBlock PlainText line]
  | .Italic line => [NewTextBlock ItalicText line]
  | .Link (.mk _ text url) =>
    [NewLinkTextBlock LinkText (textBlocks module currentPkg allPackages text) "" url]
  | .DocLink (.mk text importPath recv name) =>
    let line := comment.DocLink.mk text importPath recv name
    let importType := getImportType line currentPkg allPackages
    [NewLinkTextBlock DocLinkText (textBlocks module currentPkg allPackages text)
      (docLinkPath module currentPkg line) (docLinkHref importType line)]
  | .Other => []
end

/-! ## `lang/doc.go`: the block-building pass -/

/-- Modelled from the spec: the type `BlockKind` and its four constants used
by `NewDoc` are declared elsewhere in package `lang`; the data model gives
the kind tag of a block as one of Code, Header, List, Paragraph. -/
inductive BlockKind where
  | CodeBlock
  | HeaderBlock
  | ListBlock
  | ParagraphBlock
  deriving DecidableEq, Repr

/-- Modelled from the spec: the struct `Block` is declared elsewhere in
package `lang`; a block carries the three arguments `NewDoc` passes to
`NewBlock`: the value of `cfg.Inc(0)`, the kind, and the text. -/
structure Block (ρ : Type) where
  cfg : ρ
  kind : BlockKind
  text : Text

/-- Modelled from the spec: the constructor `NewBlock(cfg, kind, text)`,
declared elsewhere in package `lang`, stores its three arguments. -/
def NewBlock {ρ : Type} (cfg : ρ) (kind : BlockKind) (text : Text) : Block ρ :=
  ⟨cfg, kind, text⟩

/-- The struct `Doc`. -/
structure Doc (σ ρ : Type) where
  cfg : σ
  blocks : List (Block ρ)

/-- The loop over `item.Content` in `NewDoc`, appending to `commentText`. The
type assertion `t.(*comment.Paragraph)` aborts the pass (`none`) on a node
that is not a paragraph. -/
def itemCommentText (commentText : List comment.Text) :
    List comment.Block → Option (List comment.Text)
  | [] => some commentText
  | comment.Block.Paragraph text :: rest => itemCommentText (commentText ++ text) rest
  | _ :: _ => none

section Pass

variable {σ ρ : Type}

/-- The loop over `block.Items` in `NewDoc`, on the variables `text`, `blocks`
and the configuration. `Inc` is the method `cfg.Inc`, declared elsewhere in
package `lang`: from a configuration state and a step it gives the value
passed to `NewBlock` and the configuration state afterwards. -/
def listItems (Inc : σ → Int → ρ × σ) (module : String) (currentPkg : doc.Package)
    (allPackages : List doc.Package) :
    List comment.ListItem → List TextBlock → List (Block ρ) → σ →
      Option (List TextBlock × List (Block ρ) × σ)
  | [], text, blocks, cfg => some (text, blocks, cfg)
  | item :: rest, text, blocks, cfg =>
    let text := text ++ [NewTextBlock PlainText item.Number]
    match itemCommentText [] item.Content with
    | none => none
    | some commentText =>
      let text := text ++ textBlocks module currentPkg allPackages commentText
      let inc := Inc cfg 0
      listItems Inc module currentPkg allPackages rest text
        (blocks ++ [NewBlock inc.1 BlockKind.ListBlock (NewText text)]) inc.2

/-- The type switch in the body of the loop over `doc.Content` in `NewDoc`. -/
def blockStep (Inc : σ → Int → ρ × σ) (module : String) (currentPkg : doc.Package)
    (allPackages : List doc.Package) (blocks : List (Block ρ)) (cfg : σ) :
    comment.Block → Option (List (Block ρ) × σ)
  | comment.Block.Code blockText =>
    let text := NewTextBlock PlainText blockText
    let inc := Inc cfg 0
    some (blocks ++ [NewBlock inc.1 BlockKind.CodeBlock (NewText [text])], inc.2)
  | comment.Block.Heading blockText =>
    let text := textBlocks module currentPkg allPackages blockText
    let inc := Inc cfg 0
    some (blocks ++ [NewBlock inc.1 BlockKind.HeaderBlock (NewText text)], inc.2)
  | comment.Block.List forceBefore forceBetween items =>
    let text : List TextBlock :=
      if comment.BlankBefore forceBefore forceBetween items then [NewTextBlock PlainText "\n"]
      else []
    match listItems Inc module currentPkg allPackages items text blocks cfg with
    | none => none
    | some (text, blocks, cfg) =>
      let inc := Inc cfg 0
      some (blocks ++ [NewBlock inc.1 BlockKind.ListBlock (NewText text)], inc.2)
  | comment.Block.Paragraph blockText =>
    let text := textBlocks module currentPkg allPackages blockText
    let inc := Inc cfg 0
    some (blocks ++ [NewBlock inc.1 BlockKind.ParagraphBlock (NewText text)], inc.2)
  | comment.Block.Other => some (blocks, cfg)

/-- The loop over `doc.Content` in `NewDoc`. -/
def contentBlocks (Inc : σ → Int → ρ × σ) (module : String) (currentPkg : doc.Package)
    (allPackages : List doc.Package) :
    List comment.Block → List (Block ρ) → σ → Option (List (Block ρ) × σ)
  | [], blocks, cfg => some (blocks, cfg)
  | block :: rest, blocks, cfg =>
    match blockStep Inc module currentPkg allPackages blocks cfg block with
    | none => none
    | some (blocks, cfg) => contentBlocks Inc module currentPkg allPackages rest blocks cfg

/-- The function `NewDoc`. The parsed comment `content` (the result of
`currentPkg.Parser().Parse(text)`) and the module root `module` (the result of
`getModule(cfg.WorkDir)`) are taken as inputs. The result is `none` when the
pass aborts. -/
def NewDoc (Inc : σ → Int → ρ × σ) (cfg : σ) (currentPkg : doc.Package)
    (allPackages : List doc.Package) (content : List comment.Block) (module : String) :
    Option (Doc σ ρ) :=
  match contentBlocks Inc module currentPkg allPackages content [] cfg with
  | none => none
  | some (blocks, cfg) => some ⟨cfg, blocks⟩

end Pass

/-! ## Specification-side definitions -/

/-- The anchor as the specification words it: the non-empty fields among
kind, receiver and name, joined by single spaces. -/
def anchorSpec (kind recv name : String) : String :=
  " ".intercalate ([kind, recv, name].filter (fun s => s ≠ ""))

/-- The first package of the list, in list order, that has the import path of
the link and whose symbol lookup succeeds for the link's receiver and name. -/
def firstMatchingPackage (link : comment.DocLink) (allPackages : List doc.Package) :
    Option doc.Package :=
  allPackages.find? (fun p =>
    decide (p.ImportPath = link.ImportPath) && p.LookupSym link.Recv link.Name)

/-- The string `old` occurs in `s` right after the prefix `pre` and nowhere
further to the left. -/
def FirstOccurrence (old s pre post : String) : Prop :=
  s = pre ++ old ++ post ∧
    ∀ pre2 post2 : String, s = pre2 ++ old ++ post2 → pre.length ≤ pre2.length

/-- A package with no symbol at all. -/
def emptyPkg (importPath : String) : doc.Package :=
  ⟨importPath, [], [], [], [], fun _ _ => false⟩

/-- A package declaring one function `Name` with receiver `Recv`, known to the
symbol lookup. -/
def recvPkg : doc.Package :=
  ⟨"example.com/mod/pkg", [], [], [⟨"Recv", "Name"⟩], [],
    fun recv name => recv == "Recv" && name == "Name"⟩

/-- A package declaring a constant and a type of the same name `N`. -/
def constAndTypePkg : doc.Package :=
  ⟨"example.com/mod/pkg", [⟨["N"]⟩], [], [], [⟨"N"⟩], fun _ _ => true⟩

/-- A node is a paragraph. -/
def isParagraph : comment.Block → Bool
  | comment.Block.Paragraph _ => true
  | _ => false

/-- Every element of the content of a list item is a paragraph, which is what
the comment parser produces. -/
def onlyParagraphs (item : comment.ListItem) : Bool :=
  item.Content.all isParagraph

/-- Every item of a list node holds only paragraphs; other nodes have no
condition. -/
def wellFormed : comment.Block → Bool
  | comment.Block.List _ _ items => items.all onlyParagraphs
  | _ => true

/-- The text runs of a paragraph, nothing for another node. -/
def paragraphText : comment.Block → List comment.Text
  | comment.Block.Paragraph text => text
  | _ => []

/-- The paragraph content of a list item: the text runs of its paragraphs, in
order. -/
def itemParagraphs (item : comment.ListItem) : List comment.Text :=
  item.Content.flatMap paragraphText

/-- The content of one list item: a Plain span with its number marker, then
the inline conversion of its paragraph content. -/
def itemSpans (module : String) (currentPkg : doc.Package) (allPackages : List doc.Package)
    (item : comment.ListItem) : List TextBlock :=
  NewTextBlock PlainText item.Number ::
    textBlocks module currentPkg allPackages (itemParagraphs item)

/-- The blank-line marker of a list node: one Plain span holding a newline
when the list reports a blank line before it, nothing otherwise. -/
def blankMarker (forceBefore forceBetween : Bool) (items : List comment.ListItem) :
    List TextBlock :=
  if comment.BlankBefore forceBefore forceBetween items then [NewTextBlock PlainText "\n"]
  else []

/-- The kinds of the blocks a top-level node gives rise to. -/
def nodeKinds : comment.Block → List BlockKind
  | comment.Block.Code _ => [BlockKind.CodeBlock]
  | comment.Block.Heading _ => [BlockKind.HeaderBlock]
  | comment.Block.List _ _ items => List.replicate (items.length + 1) BlockKind.ListBlock
  | comment.Block.Paragraph _ => [BlockKind.ParagraphBlock]
  | comment.Block.Other => []

/-- A counter as configuration: `Inc` returns the next number. Used to run the
pass on examples. -/
def counterInc (cfg : Nat) (_step : Int) : Nat × Nat := (cfg + 1, cfg + 1)

/-- A numbered list of two items, one paragraph each. -/
def twoItemList : comment.Block :=
  comment.Block.List false false
    [comment.ListItem.mk "1" [comment.Block.Paragraph [comment.Text.Plain "a"]],
     comment.ListItem.mk "2" [comment.Block.Paragraph [comment.Text.Plain "b"]]]

/-- The literal texts of the spans of each block of a document. -/
def blockTexts {σ ρ : Type} (d : Doc σ ρ) : List (List String) :=
  d.blocks.map (fun b => b.text.TextBlocks.map TextBlock.Text)

/-- A node of the inline tree that the type switch of `textBlocks` has a case
for: Plain, Italic, Link or DocLink. -/
def recognized : comment.Text → Bool
  | comment.Text.Other => false
  | _ => true

/-- The kind of the span an inline node gives rise to, nothing for a node of
another kind. -/
def inlineKinds : comment.Text → List TextKind
  | comment.Text.Plain _ => [PlainText]
  | comment.Text.Italic _ => [ItalicText]
  | comment.Text.Link _ => [LinkText]
  | comment.Text.DocLink _ => [DocLinkText]
  | comment.Text.Other => []

mutual
/-- Some node of the sequence is a documentation link or holds one at any
depth. -/
def textsHaveDocLink : List comment.Text → Bool
  | [] => false
  | t :: rest => textHasDocLink t || textsHaveDocLink rest
/-- The node is a documentation link or a hyperlink holding one at any
depth. -/
def textHasDocLink : comment.Text → Bool
  | comment.Text.Plain _ => false
  | comment.Text.Italic _ => false
  | comment.Text.Link (comment.Link.mk _ text _) => textsHaveDocLink text
  | comment.Text.DocLink _ => true
  | comment.Text.Other => false
end

/-- The anchors of the spans nested in each span of a sequence. -/
def innerHrefs (blocks : List TextBlock) : List (List String) :=
  blocks.map (fun b =>
    match b.Inner with
    | some t => t.TextBlocks.map TextBlock.Href
    | none => [])

/-- A package whose only symbol is the type `T`. -/
def typePkg : doc.Package :=
  ⟨"example.com/mod/pkg", [], [], [], [⟨"T"⟩], fun _ _ => false⟩

/-- A list whose only item holds a code block instead of a paragraph. -/
def codeItemList : comment.Block :=
  comment.Block.List false false [comment.ListItem.mk "" [comment.Block.Code "x := 1"]]

/-- A package declaring only the constant `N`, with a symbol lookup that
succeeds. -/
def constNPkg : doc.Package :=
  ⟨"example.com/mod/pkg", [⟨["N"]⟩], [], [], [], fun _ _ => true⟩

/-- A package of the same import path declaring only the type `N`, with a
symbol lookup that succeeds. -/
def typeNPkg : doc.Package :=
  ⟨"example.com/mod/pkg", [], [], [], [⟨"N"⟩], fun _ _ => true⟩

/-- A package declaring a function `N` without receiver and a type `N`. -/
def funcAndTypePkg : doc.Package :=
  ⟨"example.com/mod/pkg", [], [], [⟨"", "N"⟩], [⟨"N"⟩], fun _ _ => true⟩

/-- The kind and Text of the blocks a top-level node gives rise to, in order:
one block for a code node, a heading or a paragraph; for a list one block for
each item, holding the blank-line marker and the content of the items up to
it, and the trailing block holding the content of all items; nothing for
another node. -/
def nodeTexts (module : String) (currentPkg : doc.Package) (allPackages : List doc.Package) :
    comment.Block → List (BlockKind × Text)
  | comment.Block.Code text => [(BlockKind.CodeBlock, NewText [NewTextBlock PlainText text])]
  | comment.Block.Heading text =>
    [(BlockKind.HeaderBlock, NewText (textBlocks module currentPkg allPackages text))]
  | comment.Block.List forceBefore forceBetween items =>
    (List.range items.length).map (fun k =>
      (BlockKind.ListBlock,
        NewText (blankMarker forceBefore forceBetween items ++
          (items.take (k + 1)).flatMap (itemSpans module currentPkg allPackages)))) ++
    [(BlockKind.ListBlock,
      NewText (blankMarker forceBefore forceBetween items ++
        items.flatMap (itemSpans module currentPkg allPackages)))]
  | comment.Block.Paragraph text =>
    [(BlockKind.ParagraphBlock, NewText (textBlocks module currentPkg allPackages text))]
  | comment.Block.Other => []

theorem namesMatch_iff (name : String) (names : List String) :
    namesMatch name names = true ↔ name ∈ names := by
  induction names with
  | nil => simp [namesMatch]
  | cons n rest ih =>
    by_cases h : name = n
    · simp [namesMatch, h]
    · simp [namesMatch, h, ih]

theorem valuesMatch_iff (name : String) (vs : List doc.Value) :
    valuesMatch name vs = true ↔ ∃ v ∈ vs, name ∈ v.Names := by
  induction vs with
  | nil => simp [valuesMatch]
  | cons v rest ih =>
    by_cases h : namesMatch name v.Names = true
    · have h2 := (namesMatch_iff name v.Names).1 h
      simp [valuesMatch, h, h2]
    · have h2 : name ∉ v.Names := fun hm => h ((namesMatch_iff name v.Names).2 hm)
      simp [valuesMatch, h, h2, ih]

theorem funcsMatch_iff (recv name : String) (fs : List doc.Func) :
    funcsMatch recv name fs = true ↔ ∃ f ∈ fs, f.Recv = recv ∧ f.Name = name := by
  induction fs with
  | nil => simp [funcsMatch]
  | cons f rest ih =>
    by_cases h : f.Recv = recv ∧ f.Name = name
    · simp [funcsMatch, h]
    · have h2 : ¬ (f.Recv = recv ∧ f.Name = name) := h
      simp only [funcsMatch, if_neg h2, ih, List.mem_cons, exists_eq_or_imp]
      exact ⟨Or.inr, fun hor => hor.resolve_left h2⟩

theorem typesMatch_iff (name : String) (ts : List doc.TypeDecl) :
    typesMatch name ts = true ↔ ∃ t ∈ ts, t.Name = name := by
  induction ts with
  | nil => simp [typesMatch]
  | cons t rest ih =>
    by_cases h : t.Name = name
    · simp [typesMatch, h]
    · simp [typesMatch, h, ih]

theorem textBlocks_docLink (module : String) (currentPkg : doc.Package)
    (allPackages : List doc.Package) (link : comment.DocLink) :
    textBlocks module currentPkg allPackages [comment.Text.DocLink link] =
      [NewLinkTextBlock DocLinkText (textBlocks module currentPkg allPackages link.Text)
        (docLinkPath module currentPkg link)
        (docLinkHref (getImportType link currentPkg allPackages) link)] := by
  cases link
  simp [textBlocks, lineBlocks, comment.DocLink.Text]

/-! ## Claims on the resolver -/

/-- C1: `getIdentifierType` classifies a link against one package by the fixed
precedence const, var, func, type, first match wins, and yields the empty kind
when nothing matches; so a package declaring both a constant and a type named
`N` yields "const" for a link to `N` without receiver. -/
theorem getIdentifierType_precedence (link : comment.DocLink) (pkg : doc.Package) :
    getIdentifierType link pkg =
      (if ∃ c ∈ pkg.Consts, link.Name ∈ c.Names then "const"
       else if ∃ v ∈ pkg.Vars, link.Name ∈ v.Names then "var"
       else if ∃ f ∈ pkg.Funcs, f.Recv = link.Recv ∧ f.Name = link.Name then "func"
       else if ∃ t ∈ pkg.Types, t.Name = link.Name then "type"
       else "") ∧
    ((∃ c ∈ pkg.Consts, link.Name ∈ c.Names) → (∃ t ∈ pkg.Types, t.Name = link.Name) →
      link.Recv = "" → getIdentifierType link pkg = "const") := by
  have key : getIdentifierType link pkg =
      (if ∃ c ∈ pkg.Consts, link.Name ∈ c.Names then "const"
       else if ∃ v ∈ pkg.Vars, link.Name ∈ v.Names then "var"
       else if ∃ f ∈ pkg.Funcs, f.Recv = link.Recv ∧ f.Name = link.Name then "func"
       else if ∃ t ∈ pkg.Types, t.Name = link.Name then "type"
       else "") := by
    unfold getIdentifierType
    simp only [valuesMatch_iff, funcsMatch_iff, typesMatch_iff]
  refine ⟨key, ?_⟩
  intro hc _ _
  rw [key, if_pos hc]

/-- Witness of C1 on a package declaring a constant and a type both named `N`. -/
theorem getIdentifierType_precedence_witness :
    getIdentifierType (comment.DocLink.mk [] "" "" "N") constAndTypePkg = "const" :=
  (getIdentifierType_precedence (comment.DocLink.mk [] "" "" "N") constAndTypePkg).2
    ⟨⟨["N"]⟩, by simp [constAndTypePkg], by simp [comment.DocLink.Name]⟩
    ⟨⟨"N"⟩, by simp [constAndTypePkg], rfl⟩ rfl

theorem scanPackages_eq (link : comment.DocLink) (allPackages : List doc.Package) :
    scanPackages link allPackages =
      match firstMatchingPackage link allPackages with
      | some p => getIdentifierType link p
      | none => "" := by
  induction allPackages with
  | nil => rfl
  | cons pkg rest ih =>
    unfold firstMatchingPackage at ih ⊢
    by_cases h : pkg.ImportPath = link.ImportPath ∧ pkg.LookupSym link.Recv link.Name = true
    · simp [scanPackages, List.find?, h.1, h.2]
    · have hb : (decide (pkg.ImportPath = link.ImportPath) &&
          pkg.LookupSym link.Recv link.Name) = false := by
        by_cases h1 : pkg.ImportPath = link.ImportPath
        · have h2 : pkg.LookupSym link.Recv link.Name ≠ true := fun h2 => h ⟨h1, h2⟩
          simp [h1, h2]
        · simp [h1]
      simp only [scanPackages, if_neg h, List.find?, hb, ih]

/-- C2: for a link with a non-empty import path, `getImportType` is
`getIdentifierType` on the first package of `allPackages` with that import
path whose symbol lookup for (receiver, name) succeeds; packages failing
either test are skipped, and with no such package the kind is empty. -/
theorem getImportType_first_matching (link : comment.DocLink) (currentPkg : doc.Package)
    (allPackages : List doc.Package) (h : link.ImportPath ≠ "") :
    getImportType link currentPkg allPackages =
      match firstMatchingPackage link allPackages with
      | some p => getIdentifierType link p
      | none => "" := by
  unfold getImportType
  rw [if_neg h]
  exact scanPackages_eq link allPackages

/-- Witness of C2: a package with the import path but a failing lookup is
skipped, the next one decides. -/
theorem getImportType_first_matching_witness :
    getImportType (comment.DocLink.mk [] "example.com/mod/pkg" "Recv" "Name")
        (emptyPkg "cur") [emptyPkg "example.com/mod/pkg", recvPkg] = "func" :=
  (getImportType_first_matching (comment.DocLink.mk [] "example.com/mod/pkg" "Recv" "Name")
    (emptyPkg "cur") [emptyPkg "example.com/mod/pkg", recvPkg] (by decide)).trans (by decide)

/-! ## Lemmas on `strings.Replace` -/

theorem replaceFirst_at_first (old new post : List Char) :
    ∀ pre : List Char,
      (∀ pre2 post2 : List Char, pre ++ old ++ post = pre2 ++ old ++ post2 →
        pre.length ≤ pre2.length) →
      strings.replaceFirst old new (pre ++ old ++ post) = pre ++ new ++ post := by
  intro pre
  induction pre with
  | nil =>
    intro _
    cases hs : old ++ post with
    | nil =>
      have ho : old = [] := (List.append_eq_nil.1 hs).1
      have hp : post = [] := (List.append_eq_nil.1 hs).2
      simp [strings.replaceFirst, ho, hp]
    | cons c t =>
      have hpre : old.isPrefixOf (c :: t) = true := by
        rw [ List.isPrefixOf_iff_prefix, ← hs]
        exact List.prefix_append old post
      simp only [List.nil_append, hs, strings.replaceFirst, hpre, if_true]
      rw [← hs, List.drop_left]
  | cons c pre0 ih =>
    intro hmin
    have hnot : old.isPrefixOf (c :: (pre0 ++ old ++ post)) ≠ true := by
      intro hp
      rw [ List.isPrefixOf_iff_prefix] at hp
      obtain ⟨post2, hpost2⟩ := hp
      have := hmin [] post2 (by simpa using hpost2.symm)
      simp at this
    have hrec := ih (fun pre2 post2 heq => by
      have := hmin (c :: pre2) post2 (by simp [heq])
      simpa using this)
    have step : strings.replaceFirst old new (c :: (pre0 ++ old ++ post)) =
        c :: strings.replaceFirst old new (pre0 ++ old ++ post) := by
      rw [strings.replaceFirst, if_neg hnot]
    simp only [List.cons_append, step, hrec]

theorem replaceFirst_absent (old new : List Char) :
    ∀ s : List Char, ¬ old <:+: s → strings.replaceFirst old new s = s := by
  intro s
  induction s with
  | nil =>
    intro h
    have ho : old ≠ [] := fun ho => h (ho ▸ List.nil_infix)
    simp [strings.replaceFirst, ho]
  | cons c t ih =>
    intro h
    have hnot : old.isPrefixOf (c :: t) ≠ true := by
      intro hp
      exact h ( List.isPrefixOf_iff_prefix.1 hp).isInfix
    have ht : ¬ old <:+: t := fun hi => h (hi.trans (List.suffix_cons c t).isInfix)
    rw [strings.replaceFirst, if_neg hnot, ih ht]

theorem Replace1_first_occurrence (s old new pre post : String)
    (h : FirstOccurrence old s pre post) :
    strings.Replace1 s old new = pre ++ new ++ post := by
  obtain ⟨hs, hmin⟩ := h
  have hd : s.data = pre.data ++ old.data ++ post.data := by simp [hs]
  have key := replaceFirst_at_first old.data new.data post.data pre.data
    (fun pre2 post2 heq => by
      have := hmin ⟨pre2⟩ ⟨post2⟩ (by
        apply String.ext
        simp only [String.data_append]
        rw [hd]; exact heq)
      simpa using this)
  apply String.ext
  simp only [strings.Replace1, hd, key, String.data_append]

theorem Replace1_absent (s old new : String)
    (h : ¬ ∃ pre post : String, s = pre ++ old ++ post) :
    strings.Replace1 s old new = s := by
  have hn : ¬ old.data <:+: s.data := by
    rintro ⟨a, b, hab⟩
    exact h ⟨⟨a⟩, ⟨b⟩, by apply String.ext; simp [hab]⟩
  apply String.ext
  simp only [strings.Replace1, replaceFirst_absent old.data new.data s.data hn]

theorem firstOccurrence_exists (old s : String)
    (h : ∃ pre post : String, s = pre ++ old ++ post) :
    ∃ pre post : String, FirstOccurrence old s pre post := by
  classical
  have hP : ∃ n : Nat, ∃ pre post : String, s = pre ++ old ++ post ∧ pre.length = n := by
    obtain ⟨pre, post, hs⟩ := h
    exact ⟨pre.length, pre, post, hs, rfl⟩
  obtain ⟨pre, post, hs, hlen⟩ := Nat.find_spec hP
  refine ⟨pre, post, hs, fun pre2 post2 h2 => ?_⟩
  rw [hlen]
  exact Nat.find_min' hP ⟨pre2, post2, h2, rfl⟩

/-! ## Claims on the cross-reference span -/

theorem docLink_href_map (module : String) (currentPkg : doc.Package)
    (allPackages : List doc.Package) (link : comment.DocLink) :
    (textBlocks module currentPkg allPackages [comment.Text.DocLink link]).map TextBlock.Href =
      [docLinkHref (getImportType link currentPkg allPackages) link] := by
  rw [textBlocks_docLink]; rfl

theorem docLink_path_map (module : String) (currentPkg : doc.Package)
    (allPackages : List doc.Package) (link : comment.DocLink) :
    (textBlocks module currentPkg allPackages [comment.Text.DocLink link]).map TextBlock.Path =
      [docLinkPath module currentPkg link] := by
  rw [textBlocks_docLink]; rfl

/-- C3: for a link with an empty import path `getImportType` searches only the
current package: it equals `getIdentifierType link currentPkg` whatever
`allPackages` is; and when the only symbol of the current package is a type
`T`, the link to `T` without receiver has kind "type" and anchor "type T". -/
theorem getImportType_current_package (link : comment.DocLink) (currentPkg : doc.Package)
    (allPackages : List doc.Package) (h : link.ImportPath = "") :
    getImportType link currentPkg allPackages = getIdentifierType link currentPkg ∧
    (∀ others : List doc.Package,
      getImportType link currentPkg others = getImportType link currentPkg allPackages) ∧
    (∀ module : String, currentPkg.Consts = [] → currentPkg.Vars = [] →
      currentPkg.Funcs = [] → currentPkg.Types = [⟨"T"⟩] →
      link.Recv = "" → link.Name = "T" →
      getImportType link currentPkg allPackages = "type" ∧
      (textBlocks module currentPkg allPackages [comment.Text.DocLink link]).map
        TextBlock.Href = ["type T"]) := by
  have h1 : ∀ others : List doc.Package,
      getImportType link currentPkg others = getIdentifierType link currentPkg := by
    intro others
    unfold getImportType
    rw [if_pos h]
  refine ⟨h1 _, fun others => (h1 others).trans (h1 _).symm, ?_⟩
  intro module hc hv hf ht hr hn
  have hk : getImportType link currentPkg allPackages = "type" := by
    rw [h1]
    simp [getIdentifierType, hc, hv, hf, ht, hn, valuesMatch, funcsMatch, typesMatch]
  refine ⟨hk, ?_⟩
  rw [docLink_href_map, hk]
  simp only [docLinkHref, hr, hn]
  rfl

/-- Witness of C3: the current package declares only the type `T`. -/
theorem getImportType_current_package_witness :
    getImportType (comment.DocLink.mk [] "" "" "T")
        ⟨"example.com/mod/pkg", [], [], [], [⟨"T"⟩], fun _ _ => false⟩ [] = "type" ∧
    (textBlocks "example.com/mod/" ⟨"example.com/mod/pkg", [], [], [], [⟨"T"⟩], fun _ _ => false⟩
        [] [comment.Text.DocLink (comment.DocLink.mk [] "" "" "T")]).map TextBlock.Href =
      ["type T"] :=
  (getImportType_current_package (comment.DocLink.mk [] "" "" "T")
    ⟨"example.com/mod/pkg", [], [], [], [⟨"T"⟩], fun _ _ => false⟩ [] rfl).2.2
    "example.com/mod/" rfl rfl rfl rfl rfl rfl

/-- C4, as stated, fails: an unresolved link without receiver gets the anchor
" Name", with a leading space, not "Name". -/
theorem docLink_anchor_counterexample :
    getImportType (comment.DocLink.mk [] "" "" "Name") (emptyPkg "") [] = "" ∧
    (textBlocks "" (emptyPkg "") [] [comment.Text.DocLink (comment.DocLink.mk [] "" "" "Name")]).map
        TextBlock.Href = [" Name"] ∧
    (textBlocks "" (emptyPkg "") [] [comment.Text.DocLink (comment.DocLink.mk [] "" "" "Name")]).map
        TextBlock.Href ≠ [anchorSpec "" "" "Name"] := by
  decide

/-- C4, amended: the anchor of the span of a documentation link is its kind,
its receiver when that is non-empty, and its name, joined by single spaces;
only an empty receiver is left out, kind and name are kept even when empty.
When kind and name are both non-empty this is the join of the non-empty
fields. -/
theorem docLink_anchor (module : String) (currentPkg : doc.Package)
    (allPackages : List doc.Package) (link : comment.DocLink) :
    (textBlocks module currentPkg allPackages [comment.Text.DocLink link]).map TextBlock.Href =
      [" ".intercalate ([getImportType link currentPkg allPackages] ++
        (if link.Recv = "" then [] else [link.Recv]) ++ [link.Name])] ∧
    (getImportType link currentPkg allPackages ≠ "" → link.Name ≠ "" →
      (textBlocks module currentPkg allPackages [comment.Text.DocLink link]).map TextBlock.Href =
        [anchorSpec (getImportType link currentPkg allPackages) link.Recv link.Name]) := by
  rw [docLink_href_map]
  constructor
  · by_cases hr : link.Recv = ""
    · simp [docLinkHref, hr, String.intercalate, String.intercalate.go, String.append_assoc]
    · simp [docLinkHref, hr, String.intercalate, String.intercalate.go, String.append_assoc]
  · intro hk hn
    by_cases hr : link.Recv = ""
    · simp [docLinkHref, anchorSpec, hr, hk, hn, List.filter, String.intercalate,
        String.intercalate.go, String.append_assoc]
    · simp [docLinkHref, anchorSpec, hr, hk, hn, List.filter, String.intercalate,
        String.intercalate.go, String.append_assoc]

/-- Witness of C4 (amended) on a resolved method link. -/
theorem docLink_anchor_witness :
    (textBlocks "example.com/mod/" (emptyPkg "cur") [recvPkg]
        [comment.Text.DocLink (comment.DocLink.mk [] "example.com/mod/pkg" "Recv" "Name")]).map
        TextBlock.Href =
      [anchorSpec (getImportType (comment.DocLink.mk [] "example.com/mod/pkg" "Recv" "Name")
        (emptyPkg "cur") [recvPkg]) "Recv" "Name"] :=
  (docLink_anchor "example.com/mod/" (emptyPkg "cur") [recvPkg]
    (comment.DocLink.mk [] "example.com/mod/pkg" "Recv" "Name")).2 (by decide) (by decide)

/-- C5, as stated, fails: a link into the current package gets the current
package's import path with the module root removed, here "pkg", not "". -/
theorem docLink_path_current_counterexample :
    (textBlocks "example.com/mod/"
        ⟨"example.com/mod/pkg", [], [], [], [⟨"T"⟩], fun _ _ => false⟩ []
        [comment.Text.DocLink (comment.DocLink.mk [] "" "" "T")]).map TextBlock.Path = ["pkg"] ∧
    (textBlocks "example.com/mod/"
        ⟨"example.com/mod/pkg", [], [], [], [⟨"T"⟩], fun _ _ => false⟩ []
        [comment.Text.DocLink (comment.DocLink.mk [] "" "" "T")]).map TextBlock.Path ≠ [""] := by
  decide

/-- C5, amended: for a link with an empty import path the path of the span is
the current package's import path with the first occurrence of the module
root removed (unchanged when the module root does not occur in it); it is
the empty string when the current package's import path is the module root
itself or is empty. -/
theorem docLink_path_current (module : String) (currentPkg : doc.Package)
    (allPackages : List doc.Package) (link : comment.DocLink) (h : link.ImportPath = "") :
    (∀ pre post : String, FirstOccurrence module currentPkg.ImportPath pre post →
      (textBlocks module currentPkg allPackages [comment.Text.DocLink link]).map TextBlock.Path =
        [pre ++ post]) ∧
    ((¬ ∃ pre post : String, currentPkg.ImportPath = pre ++ module ++ post) →
      (textBlocks module currentPkg allPackages [comment.Text.DocLink link]).map TextBlock.Path =
        [currentPkg.ImportPath]) ∧
    (currentPkg.ImportPath = module ∨ currentPkg.ImportPath = "" →
      (textBlocks module currentPkg allPackages [comment.Text.DocLink link]).map TextBlock.Path =
        [""]) := by
  have hp : docLinkPath module currentPkg link =
      strings.Replace1 currentPkg.ImportPath module "" := by
    simp [docLinkPath, h]
  rw [docLink_path_map, hp]
  refine ⟨?_, ?_, ?_⟩
  · intro pre post hfo
    rw [Replace1_first_occurrence _ _ "" pre post hfo]
    simp
  · intro habs
    rw [Replace1_absent _ _ "" habs]
  · intro hor
    rcases hor with hm | he
    · have hfo : FirstOccurrence module currentPkg.ImportPath "" "" :=
        ⟨by simp [hm], fun _ _ _ => Nat.zero_le _⟩
      rw [Replace1_first_occurrence _ _ "" "" "" hfo]
      rfl
    · rw [he]
      cases hmod : module.data with
      | nil => simp [strings.Replace1, strings.replaceFirst, hmod]
      | cons c t => simp [strings.Replace1, strings.replaceFirst, hmod]

/-- Witness of C5 (amended): the current package is the module root. -/
theorem docLink_path_current_witness :
    (textBlocks "example.com/mod" (emptyPkg "example.com/mod") []
        [comment.Text.DocLink (comment.DocLink.mk [] "" "" "T")]).map TextBlock.Path = [""] :=
  (docLink_path_current "example.com/mod" (emptyPkg "example.com/mod") []
    (comment.DocLink.mk [] "" "" "T") rfl).2.2 (Or.inl rfl)

/-- C6: for a link with a non-empty import path the path of the span is the
link's import path with exactly the first occurrence of the module root
removed, and the import path unchanged when the module root does not occur;
with module root "example.com/mod/" and a package "example.com/mod/pkg"
declaring function `Name` with receiver `Recv`, the link to it has path "pkg"
and anchor "func Recv Name". -/
theorem docLink_path_import (module : String) (currentPkg : doc.Package)
    (allPackages : List doc.Package) (link : comment.DocLink) (h : link.ImportPath ≠ "") :
    (∀ pre post : String, FirstOccurrence module link.ImportPath pre post →
      (textBlocks module currentPkg allPackages [comment.Text.DocLink link]).map TextBlock.Path =
        [pre ++ post]) ∧
    ((¬ ∃ pre post : String, link.ImportPath = pre ++ module ++ post) →
      (textBlocks module currentPkg allPackages [comment.Text.DocLink link]).map TextBlock.Path =
        [link.ImportPath]) ∧
    ((∃ pre post : String, link.ImportPath = pre ++ module ++ post) →
      ∃ pre post : String, FirstOccurrence module link.ImportPath pre post ∧
        (textBlocks module currentPkg allPackages [comment.Text.DocLink link]).map
          TextBlock.Path = [pre ++ post]) ∧
    (∀ text : List comment.Text,
      textBlocks "example.com/mod/" currentPkg [recvPkg]
          [comment.Text.DocLink (comment.DocLink.mk text "example.com/mod/pkg" "Recv" "Name")] =
        [NewLinkTextBlock DocLinkText (textBlocks "example.com/mod/" currentPkg [recvPkg] text)
          "pkg" "func Recv Name"]) := by
  have hp : docLinkPath module currentPkg link = strings.Replace1 link.ImportPath module "" := by
    simp [docLinkPath, h]
  rw [docLink_path_map, hp]
  refine ⟨?_, ?_, ?_, ?_⟩
  · intro pre post hfo
    rw [Replace1_first_occurrence _ _ "" pre post hfo]
    simp
  · intro habs
    rw [Replace1_absent _ _ "" habs]
  · intro hocc
    obtain ⟨pre, post, hfo⟩ := firstOccurrence_exists module link.ImportPath hocc
    refine ⟨pre, post, hfo, ?_⟩
    rw [Replace1_first_occurrence _ _ "" pre post hfo]
    simp
  · intro text
    rw [textBlocks_docLink]
    rfl

/-- Witness of C6: the module root occurs twice in the import path and only
its first occurrence is removed. -/
theorem docLink_path_import_witness :
    (textBlocks "example.com/mod/" (emptyPkg "cur") []
        [comment.Text.DocLink
          (comment.DocLink.mk [] "example.com/mod/example.com/mod/pkg" "" "F")]).map
        TextBlock.Path = ["" ++ "example.com/mod/pkg"] :=
  (docLink_path_import "example.com/mod/" (emptyPkg "cur") []
    (comment.DocLink.mk [] "example.com/mod/example.com/mod/pkg" "" "F") (by decide)).1
    "" "example.com/mod/pkg" ⟨by decide, fun _ _ _ => Nat.zero_le _⟩

/-- C7, as stated, fails: the span of an unresolved link has the anchor
" Missing" and the path "pkg", neither of them empty. -/
theorem docLink_unresolved_counterexample :
    getImportType (comment.DocLink.mk [comment.Text.Plain "x"] "" "" "Missing")
        (emptyPkg "example.com/mod/pkg") [] = "" ∧
    (textBlocks "example.com/mod/" (emptyPkg "example.com/mod/pkg") []
        [comment.Text.DocLink (comment.DocLink.mk [comment.Text.Plain "x"] "" "" "Missing")]).map
        TextBlock.Href = [" Missing"] ∧
    (textBlocks "example.com/mod/" (emptyPkg "example.com/mod/pkg") []
        [comment.Text.DocLink (comment.DocLink.mk [comment.Text.Plain "x"] "" "" "Missing")]).map
        TextBlock.Path = ["pkg"] ∧
    " Missing" ≠ "" ∧ "pkg" ≠ "" := by
  decide

/-- C7, amended: for a link that resolves to the empty kind `textBlocks` still
produces exactly one span, of kind docLink, whose nested sequence is the
inline conversion of the link's display text; its anchor is the empty kind
followed by the receiver (when non-empty) and the name, each preceded by a
space, hence never empty, and its path is the link's import path (the current
package's when the link has none) with the first module root removed. -/
theorem docLink_unresolved (module : String) (currentPkg : doc.Package)
    (allPackages : List doc.Package) (link : comment.DocLink)
    (h : getImportType link currentPkg allPackages = "") :
    textBlocks module currentPkg allPackages [comment.Text.DocLink link] =
      [NewLinkTextBlock DocLinkText (textBlocks module currentPkg allPackages link.Text)
        (strings.Replace1
          (if link.ImportPath = "" then currentPkg.ImportPath else link.ImportPath) module "")
        ((if link.Recv = "" then "" else " " ++ link.Recv) ++ " " ++ link.Name)] ∧
    (textBlocks module currentPkg allPackages [comment.Text.DocLink link]).map TextBlock.Kind =
      ["docLink"] ∧
    (textBlocks module currentPkg allPackages [comment.Text.DocLink link]).map TextBlock.Inner =
      [some (NewText (textBlocks module currentPkg allPackages link.Text))] ∧
    (textBlocks module currentPkg allPackages [comment.Text.DocLink link]).map TextBlock.Href ≠
      [""] := by
  have hh : docLinkHref "" link =
      (if link.Recv = "" then "" else " " ++ link.Recv) ++ " " ++ link.Name := by
    by_cases hr : link.Recv = ""
    · simp [docLinkHref, hr]
    · simp [docLinkHref, hr, String.append_assoc]
  rw [textBlocks_docLink, h, hh]
  refine ⟨rfl, rfl, rfl, ?_⟩
  intro hempty
  have hlen := congrArg (fun l : List String => l.map String.length) hempty
  simp [NewLinkTextBlock, TextBlock.Href, String.length_append] at hlen
  exact absurd hlen.1.2 (by decide)

/-- Witness of C7 (amended): a link to a symbol no package declares. -/
theorem docLink_unresolved_witness :
    (textBlocks "example.com/mod/" (emptyPkg "example.com/mod/pkg") []
        [comment.Text.DocLink (comment.DocLink.mk [comment.Text.Plain "x"] "" "" "Missing")]).map
        TextBlock.Kind = ["docLink"] :=
  (docLink_unresolved "example.com/mod/" (emptyPkg "example.com/mod/pkg") []
    (comment.DocLink.mk [comment.Text.Plain "x"] "" "" "Missing") (by decide)).2.1

/-! ## Lemmas on the block-building pass -/

theorem itemCommentText_paragraphs (content : List comment.Block) :
    ∀ commentText : List comment.Text, content.all isParagraph = true →
      itemCommentText commentText content =
        some (commentText ++ content.flatMap paragraphText) := by
  induction content with
  | nil => intro commentText _; simp [itemCommentText]
  | cons b rest ih =>
    intro commentText h
    rw [List.all_cons, Bool.and_eq_true] at h
    cases b with
    | Paragraph text =>
      simp [itemCommentText, ih (commentText ++ text) h.2, paragraphText]
    | Code _ => simp [isParagraph] at h
    | Heading _ => simp [isParagraph] at h
    | List _ _ _ => simp [isParagraph] at h
    | Other => simp [isParagraph] at h

section PassLemmas

variable {σ ρ : Type} (Inc : σ → Int → ρ × σ) (module : String) (currentPkg : doc.Package)
  (allPackages : List doc.Package)

theorem listItems_spec (items : List comment.ListItem) :
    ∀ (text : List TextBlock) (blocks : List (Block ρ)) (cfg : σ),
      items.all onlyParagraphs = true →
      ∃ (bs : List (Block ρ)) (cfg2 : σ),
        listItems Inc module currentPkg allPackages items text blocks cfg =
          some (text ++ items.flatMap (itemSpans module currentPkg allPackages),
            blocks ++ bs, cfg2) ∧
        bs.map (fun b => (b.kind, b.text)) =
          (List.range items.length).map (fun k =>
            (BlockKind.ListBlock,
              NewText (text ++
                (items.take (k + 1)).flatMap (itemSpans module currentPkg allPackages)))) := by
  induction items with
  | nil =>
    intro text blocks cfg _
    exact ⟨[], cfg, by simp [listItems], by simp⟩
  | cons item rest ih =>
    intro text blocks cfg h
    rw [List.all_cons, Bool.and_eq_true] at h
    have hc := itemCommentText_paragraphs item.Content [] h.1
    obtain ⟨bs, cfg2, hrun, hmap⟩ :=
      ih (text ++ itemSpans module currentPkg allPackages item)
        (blocks ++ [NewBlock (Inc cfg 0).1 BlockKind.ListBlock
          (NewText (text ++ itemSpans module currentPkg allPackages item))])
        (Inc cfg 0).2 h.2
    refine ⟨NewBlock (Inc cfg 0).1 BlockKind.ListBlock
      (NewText (text ++ itemSpans module currentPkg allPackages item)) :: bs, cfg2, ?_, ?_⟩
    · have htext : text ++ [NewTextBlock PlainText item.Number] ++
          textBlocks module currentPkg allPackages (item.Content.flatMap paragraphText) =
          text ++ itemSpans module currentPkg allPackages item := by
        simp [itemSpans, itemParagraphs]
      simp only [listItems, hc, List.nil_append, htext, hrun]
      simp
    · rw [List.length_cons, List.range_succ_eq_map]
      simp only [List.map_cons, List.map_map, NewBlock, hmap]
      simp [Function.comp_def]

theorem listItems_frame (items : List comment.ListItem) :
    ∀ (text : List TextBlock) (pre blocks : List (Block ρ)) (cfg : σ),
      listItems Inc module currentPkg allPackages items text (pre ++ blocks) cfg =
        (listItems Inc module currentPkg allPackages items text blocks cfg).map
          (fun r => (r.1, pre ++ r.2.1, r.2.2)) := by
  induction items with
  | nil => intro text pre blocks cfg; simp [listItems]
  | cons item rest ih =>
    intro text pre blocks cfg
    cases hc : itemCommentText [] item.Content with
    | none => simp [listItems, hc]
    | some commentText =>
      simp only [listItems, hc, List.append_assoc]
      exact ih _ pre _ _

theorem blockStep_frame (block : comment.Block) (pre blocks : List (Block ρ)) (cfg : σ) :
    blockStep Inc module currentPkg allPackages (pre ++ blocks) cfg block =
      (blockStep Inc module currentPkg allPackages blocks cfg block).map
        (fun r => (pre ++ r.1, r.2)) := by
  cases block with
  | Code _ => simp [blockStep]
  | Heading _ => simp [blockStep]
  | Paragraph _ => simp [blockStep]
  | Other => simp [blockStep]
  | List forceBefore forceBetween items =>
    simp only [blockStep, listItems_frame]
    cases listItems Inc module currentPkg allPackages items
      (if comment.BlankBefore forceBefore forceBetween items = true then
        [NewTextBlock PlainText "\n"] else []) blocks cfg with
    | none => simp
    | some r => simp

theorem contentBlocks_frame (content : List comment.Block) :
    ∀ (pre blocks : List (Block ρ)) (cfg : σ),
      contentBlocks Inc module currentPkg allPackages content (pre ++ blocks) cfg =
        (contentBlocks Inc module currentPkg allPackages content blocks cfg).map
          (fun r => (pre ++ r.1, r.2)) := by
  induction content with
  | nil => intro pre blocks cfg; simp [contentBlocks]
  | cons block rest ih =>
    intro pre blocks cfg
    simp only [contentBlocks, blockStep_frame]
    cases blockStep Inc module currentPkg allPackages blocks cfg block with
    | none => simp
    | some r => simpa using ih pre r.1 r.2

theorem contentBlocks_append (contentA contentB : List comment.Block) :
    ∀ (blocks : List (Block ρ)) (cfg : σ),
      contentBlocks Inc module currentPkg allPackages (contentA ++ contentB) blocks cfg =
        (contentBlocks Inc module currentPkg allPackages contentA blocks cfg).bind
          (fun r => contentBlocks Inc module currentPkg allPackages contentB r.1 r.2) := by
  induction contentA with
  | nil => intro blocks cfg; simp [contentBlocks]
  | cons block rest ih =>
    intro blocks cfg
    simp only [List.cons_append, contentBlocks]
    cases blockStep Inc module currentPkg allPackages blocks cfg block with
    | none => simp
    | some r => simpa using ih r.1 r.2

theorem blockStep_list (forceBefore forceBetween : Bool) (items : List comment.ListItem)
    (cfg : σ) (hwf : items.all onlyParagraphs = true) :
    ∃ (itemBlocks : List (Block ρ)) (trailing : Block ρ) (cfg2 : σ),
      (∀ blocks : List (Block ρ),
        blockStep Inc module currentPkg allPackages blocks cfg
            (comment.Block.List forceBefore forceBetween items) =
          some (blocks ++ (itemBlocks ++ [trailing]), cfg2)) ∧
      itemBlocks.map (fun b => (b.kind, b.text)) =
        (List.range items.length).map (fun k =>
          (BlockKind.ListBlock,
            NewText (blankMarker forceBefore forceBetween items ++
              (items.take (k + 1)).flatMap (itemSpans module currentPkg allPackages)))) ∧
      trailing.kind = BlockKind.ListBlock ∧
      trailing.text =
        NewText (blankMarker forceBefore forceBetween items ++
          items.flatMap (itemSpans module currentPkg allPackages)) := by
  obtain ⟨bs, cfg1, hrun, hmap⟩ :=
    listItems_spec Inc module currentPkg allPackages items
      (blankMarker forceBefore forceBetween items) [] cfg hwf
  refine ⟨bs, NewBlock (Inc cfg1 0).1 BlockKind.ListBlock
    (NewText (blankMarker forceBefore forceBetween items ++
      items.flatMap (itemSpans module currentPkg allPackages))), (Inc cfg1 0).2, ?_, hmap, rfl, rfl⟩
  intro blocks
  have hpre := listItems_frame Inc module currentPkg allPackages items
    (blankMarker forceBefore forceBetween items) blocks [] cfg
  rw [List.append_nil, hrun] at hpre
  simp only [blankMarker] at hpre
  simp only [blockStep, hpre, Option.map_some']
  simp [blankMarker]

theorem blockStep_kinds (block : comment.Block) (cfg : σ) (hwf : wellFormed block = true) :
    ∃ (bs : List (Block ρ)) (cfg2 : σ),
      (∀ blocks : List (Block ρ),
        blockStep Inc module currentPkg allPackages blocks cfg block =
          some (blocks ++ bs, cfg2)) ∧
      bs.map Block.kind = nodeKinds block := by
  cases block with
  | Code t => exact ⟨_, _, fun _ => rfl, rfl⟩
  | Heading t => exact ⟨_, _, fun _ => rfl, rfl⟩
  | Paragraph t => exact ⟨_, _, fun _ => rfl, rfl⟩
  | Other => exact ⟨[], cfg, fun _ => by simp [blockStep], rfl⟩
  | List forceBefore forceBetween items =>
    obtain ⟨itemBlocks, trailing, cfg2, hrun, hmap, hk, _⟩ :=
      blockStep_list Inc module currentPkg allPackages forceBefore forceBetween items cfg hwf
    refine ⟨itemBlocks ++ [trailing], cfg2, hrun, ?_⟩
    have hkinds : itemBlocks.map Block.kind =
        List.replicate items.length BlockKind.ListBlock := by
      have := congrArg (List.map Prod.fst) hmap
      simpa [List.map_map, Function.comp_def, List.map_const'] using this
    simp [nodeKinds, hkinds, hk, List.replicate_succ']

theorem contentBlocks_kinds (content : List comment.Block) :
    ∀ cfg : σ, content.all wellFormed = true →
      ∃ (bs : List (Block ρ)) (cfg2 : σ),
        (∀ blocks : List (Block ρ),
          contentBlocks Inc module currentPkg allPackages content blocks cfg =
            some (blocks ++ bs, cfg2)) ∧
        bs.map Block.kind = content.flatMap nodeKinds := by
  induction content with
  | nil => intro cfg _; exact ⟨[], cfg, fun _ => by simp [contentBlocks], rfl⟩
  | cons block rest ih =>
    intro cfg h
    rw [List.all_cons, Bool.and_eq_true] at h
    obtain ⟨bs1, cfg1, hstep, hk1⟩ :=
      blockStep_kinds Inc module currentPkg allPackages block cfg h.1
    obtain ⟨bs2, cfg2, hrest, hk2⟩ := ih cfg1 h.2
    refine ⟨bs1 ++ bs2, cfg2, ?_, by simp [hk1, hk2]⟩
    intro blocks
    simp only [contentBlocks, hstep, hrest, List.append_assoc]

theorem NewDoc_eq (cfg : σ) (content : List comment.Block) :
    NewDoc Inc cfg currentPkg allPackages content module =
      (contentBlocks Inc module currentPkg allPackages content [] cfg).map
        (fun r => ⟨r.2, r.1⟩) := by
  unfold NewDoc
  cases contentBlocks Inc module currentPkg allPackages content [] cfg with
  | none => rfl
  | some r => rfl

theorem NewDoc_single (cfg : σ) (block : comment.Block) :
    NewDoc Inc cfg currentPkg allPackages [block] module =
      (blockStep Inc module currentPkg allPackages [] cfg block).map
        (fun r => ⟨r.2, r.1⟩) := by
  rw [NewDoc_eq]
  simp only [contentBlocks]
  cases blockStep Inc module currentPkg allPackages [] cfg block with
  | none => rfl
  | some r => rfl

theorem blockStep_texts (block : comment.Block) (cfg : σ) (hwf : wellFormed block = true) :
    ∃ (bs : List (Block ρ)) (cfg2 : σ),
      (∀ blocks : List (Block ρ),
        blockStep Inc module currentPkg allPackages blocks cfg block =
          some (blocks ++ bs, cfg2)) ∧
      bs.map (fun b => (b.kind, b.text)) = nodeTexts module currentPkg allPackages block := by
  cases block with
  | Code t => exact ⟨_, _, fun _ => rfl, rfl⟩
  | Heading t => exact ⟨_, _, fun _ => rfl, rfl⟩
  | Paragraph t => exact ⟨_, _, fun _ => rfl, rfl⟩
  | Other => exact ⟨[], cfg, fun _ => by simp [blockStep], rfl⟩
  | List forceBefore forceBetween items =>
    obtain ⟨itemBlocks, trailing, cfg2, hrun, hmap, hk, ht⟩ :=
      blockStep_list Inc module currentPkg allPackages forceBefore forceBetween items cfg hwf
    refine ⟨itemBlocks ++ [trailing], cfg2, hrun, ?_⟩
    simp only [List.map_append, hmap, List.map_cons, List.map_nil, hk, ht, nodeTexts]

theorem contentBlocks_texts (content : List comment.Block) :
    ∀ cfg : σ, content.all wellFormed = true →
      ∃ (bs : List (Block ρ)) (cfg2 : σ),
        (∀ blocks : List (Block ρ),
          contentBlocks Inc module currentPkg allPackages content blocks cfg =
            some (blocks ++ bs, cfg2)) ∧
        bs.map (fun b => (b.kind, b.text)) =
          content.flatMap (nodeTexts module currentPkg allPackages) := by
  induction content with
  | nil => intro cfg _; exact ⟨[], cfg, fun _ => by simp [contentBlocks], rfl⟩
  | cons block rest ih =>
    intro cfg h
    rw [List.all_cons, Bool.and_eq_true] at h
    obtain ⟨bs1, cfg1, hstep, hk1⟩ :=
      blockStep_texts Inc module currentPkg allPackages block cfg h.1
    obtain ⟨bs2, cfg2, hrest, hk2⟩ := ih cfg1 h.2
    refine ⟨bs1 ++ bs2, cfg2, ?_, by simp [hk1, hk2]⟩
    intro blocks
    simp only [contentBlocks, hstep, hrest, List.append_assoc]

end PassLemmas

/-! ## Claims on the block-building pass -/

section PassClaims

variable {σ ρ : Type} (Inc : σ → Int → ρ × σ) (module : String) (currentPkg : doc.Package)
  (allPackages : List doc.Package)

/-- C8, as stated, fails: for a list of two items "1" and "2" the second List
block holds the spans of both items, "1", "a", "2", "b", where the claim has
only the second item's marker and content, "2", "b". -/
theorem NewDoc_list_item_counterexample :
    (NewDoc counterInc 0 (emptyPkg "p") [] [twoItemList] "").map blockTexts =
      some [["1", "a"], ["1", "a", "2", "b"], ["1", "a", "2", "b"]] ∧
    (itemSpans "" (emptyPkg "p") []
        (comment.ListItem.mk "2" [comment.Block.Paragraph [comment.Text.Plain "b"]])).map
        TextBlock.Text = ["2", "b"] ∧
    ["1", "a", "2", "b"] ≠ ["2", "b"] := by
  decide

/-- C8, amended: for a list node whose items hold only paragraphs and every
item k of it, the k-th List block emitted by `NewDoc` for that list has Text
equal to the blank-line marker (present when the list reports a blank line
before it), then the content of the items before k, in order, then item k's
own content: a Plain span holding its number marker followed by the inline
conversion of its paragraph content. Item k's own content is the final part
of the Text, not the whole of it. -/
theorem NewDoc_list_item_block (cfg : σ) (forceBefore forceBetween : Bool)
    (items : List comment.ListItem) (hwf : items.all onlyParagraphs = true) :
    ∃ (emitted : List (Block ρ)) (cfg2 : σ),
      NewDoc Inc cfg currentPkg allPackages
          [comment.Block.List forceBefore forceBetween items] module = some ⟨cfg2, emitted⟩ ∧
      (∀ blocks : List (Block ρ),
        blockStep Inc module currentPkg allPackages blocks cfg
            (comment.Block.List forceBefore forceBetween items) =
          some (blocks ++ emitted, cfg2)) ∧
      ∀ (k : Nat) (hk : k < items.length),
        (emitted[k]?).map (fun b => (b.kind, b.text)) =
          some (BlockKind.ListBlock,
            NewText (blankMarker forceBefore forceBetween items ++
              (items.take k).flatMap (itemSpans module currentPkg allPackages) ++
              (NewTextBlock PlainText (items.get ⟨k, hk⟩).Number ::
                textBlocks module currentPkg allPackages
                  (itemParagraphs (items.get ⟨k, hk⟩))))) := by
  obtain ⟨itemBlocks, trailing, cfg2, hrun, hmap, _, _⟩ :=
    blockStep_list Inc module currentPkg allPackages forceBefore forceBetween items cfg hwf
  refine ⟨itemBlocks ++ [trailing], cfg2, ?_, hrun, ?_⟩
  · rw [NewDoc_single, hrun]; rfl
  · intro k hk
    have hlen : itemBlocks.length = items.length := by
      have := congrArg List.length hmap
      simpa using this
    have hk2 : k < itemBlocks.length := hlen ▸ hk
    rw [List.getElem?_append_left hk2, ← List.getElem?_map, hmap, List.getElem?_map,
      List.getElem?_range hk]
    simp only [Option.map_some', List.take_succ, List.getElem?_eq_getElem hk,
      Option.toList, List.flatMap_append, List.flatMap_cons, List.flatMap_nil,
      List.append_nil, List.append_assoc, itemSpans, List.get_eq_getElem]

/-- Witness of C8 (amended) on the list of two items: the second block holds
the spans of both items. -/
theorem NewDoc_list_item_block_witness :
    (NewDoc counterInc 0 (emptyPkg "p") [] [twoItemList] "").map
        (fun d => (d.blocks[1]?).map (fun b => (b.kind, b.text))) =
      some (some (BlockKind.ListBlock,
        NewText [NewTextBlock PlainText "1", NewTextBlock PlainText "a",
          NewTextBlock PlainText "2", NewTextBlock PlainText "b"])) := by
  obtain ⟨emitted, cfg2, hdoc, _, hitem⟩ :=
    NewDoc_list_item_block counterInc "" (emptyPkg "p") [] 0 false false
      [comment.ListItem.mk "1" [comment.Block.Paragraph [comment.Text.Plain "a"]],
       comment.ListItem.mk "2" [comment.Block.Paragraph [comment.Text.Plain "b"]]] (by decide)
  have h1 := hitem 1 (by decide)
  unfold twoItemList
  rw [hdoc]
  exact congrArg some h1

/-- C9, as stated, fails: for a list of one item that holds a code block
`NewDoc` emits no block at all, where the claim has two List blocks. -/
theorem NewDoc_list_blocks_counterexample :
    (NewDoc counterInc 0 (emptyPkg "p") [] [codeItemList] "").map
      (fun d => d.blocks.map Block.kind) = none ∧
    (NewDoc counterInc 0 (emptyPkg "p") [] [codeItemList] "").map
      (fun d => d.blocks.map Block.kind) ≠
      some [BlockKind.ListBlock, BlockKind.ListBlock] := by
  decide

/-- C9, amended: for a list node with n items, each holding only paragraphs,
`NewDoc` emits exactly n+1 List blocks, the n item blocks first and one
trailing aggregate block last; the Text of the trailing block is a Plain
"\n" span, present if and only if the list reports a blank line before it,
followed by the concatenation, in item order, of each item's marker span and
the inline conversion of its paragraphs. -/
theorem NewDoc_list_blocks (cfg : σ) (forceBefore forceBetween : Bool)
    (items : List comment.ListItem) (hwf : items.all onlyParagraphs = true) :
    ∃ (itemBlocks : List (Block ρ)) (trailing : Block ρ) (cfg2 : σ),
      NewDoc Inc cfg currentPkg allPackages
          [comment.Block.List forceBefore forceBetween items] module =
        some ⟨cfg2, itemBlocks ++ [trailing]⟩ ∧
      (∀ blocks : List (Block ρ),
        blockStep Inc module currentPkg allPackages blocks cfg
            (comment.Block.List forceBefore forceBetween items) =
          some (blocks ++ (itemBlocks ++ [trailing]), cfg2)) ∧
      itemBlocks.length = items.length ∧
      (itemBlocks ++ [trailing]).length = items.length + 1 ∧
      (∀ b ∈ itemBlocks ++ [trailing], b.kind = BlockKind.ListBlock) ∧
      trailing.text =
        NewText ((if comment.BlankBefore forceBefore forceBetween items = true
            then [NewTextBlock PlainText "\n"] else []) ++
          items.flatMap (fun item =>
            NewTextBlock PlainText item.Number ::
              textBlocks module currentPkg allPackages (itemParagraphs item))) := by
  obtain ⟨itemBlocks, trailing, cfg2, hrun, hmap, hkind, htext⟩ :=
    blockStep_list Inc module currentPkg allPackages forceBefore forceBetween items cfg hwf
  have hlen : itemBlocks.length = items.length := by
    have := congrArg List.length hmap
    simpa using this
  refine ⟨itemBlocks, trailing, cfg2, ?_, hrun, hlen, by simp [hlen], ?_, ?_⟩
  · rw [NewDoc_single, hrun]; rfl
  · intro b hb
    rcases List.mem_append.1 hb with hi | ht
    · have hmem : (b.kind, b.text) ∈ itemBlocks.map (fun b => (b.kind, b.text)) :=
        List.mem_map_of_mem _ hi
      rw [hmap] at hmem
      obtain ⟨k, _, hkq⟩ := List.mem_map.1 hmem
      exact (congrArg Prod.fst hkq).symm
    · rw [List.mem_singleton.1 ht]; exact hkind
  · rw [htext]; rfl

/-- Witness of C9 on the list of two items: three blocks, the last holding all
spans. -/
theorem NewDoc_list_blocks_witness :
    (NewDoc counterInc 0 (emptyPkg "p") [] [twoItemList] "").map
        (fun d => (d.blocks.length, d.blocks.getLast?.map Block.text)) =
      some (3, some (NewText [NewTextBlock PlainText "1", NewTextBlock PlainText "a",
        NewTextBlock PlainText "2", NewTextBlock PlainText "b"])) := by
  obtain ⟨itemBlocks, trailing, cfg2, hdoc, _, _, hlen, _, htext⟩ :=
    NewDoc_list_blocks counterInc "" (emptyPkg "p") [] 0 false false
      [comment.ListItem.mk "1" [comment.Block.Paragraph [comment.Text.Plain "a"]],
       comment.ListItem.mk "2" [comment.Block.Paragraph [comment.Text.Plain "b"]]] (by decide)
  unfold twoItemList
  have hlast : (itemBlocks ++ [trailing]).getLast? = some trailing := by simp
  rw [hdoc]
  simp only [Option.map_some', hlen, hlast, htext]
  rfl

/-- C10, as stated, fails: a paragraph followed by a list whose item holds a
code block gives no block sequence at all, while the paragraph alone gives
one Paragraph block. -/
theorem NewDoc_concat_counterexample :
    (NewDoc counterInc 0 (emptyPkg "p") []
      [comment.Block.Paragraph [comment.Text.Plain "a"]] "").map
      (fun d => d.blocks.map Block.kind) = some [BlockKind.ParagraphBlock] ∧
    (NewDoc counterInc 0 (emptyPkg "p") []
      ([comment.Block.Paragraph [comment.Text.Plain "a"]] ++ [codeItemList]) "").map
      (fun d => d.blocks.map Block.kind) = none := by
  decide

/-- C10, amended: for an input tree whose list items hold only paragraphs, the
block sequence built by `NewDoc` is the concatenation, in input order, of the
blocks of its top-level nodes: one Code block for a code node, one Header
block for a heading, one Paragraph block for a paragraph, n+1 List blocks for
a list of n items and no block for another node; the blocks of tree A
followed by tree B are the blocks of A followed by the blocks of B. The kinds
and Texts of the blocks of B are those `NewDoc` builds for B on its own, from
any configuration; the values of `cfg.Inc(0)` they carry are those of the
pass continuing from the configuration the pass over A ends with. -/
theorem NewDoc_concat (cfg : σ) (contentA contentB : List comment.Block)
    (hA : contentA.all wellFormed = true) (hB : contentB.all wellFormed = true) :
    ∃ (docA docB : Doc σ ρ),
      NewDoc Inc cfg currentPkg allPackages contentA module = some docA ∧
      NewDoc Inc docA.cfg currentPkg allPackages contentB module = some docB ∧
      NewDoc Inc cfg currentPkg allPackages (contentA ++ contentB) module =
        some ⟨docB.cfg, docA.blocks ++ docB.blocks⟩ ∧
      docA.blocks.map Block.kind = contentA.flatMap nodeKinds ∧
      docB.blocks.map Block.kind = contentB.flatMap nodeKinds ∧
      (docA.blocks ++ docB.blocks).map Block.kind = (contentA ++ contentB).flatMap nodeKinds ∧
      docA.blocks.map (fun b => (b.kind, b.text)) =
        contentA.flatMap (nodeTexts module currentPkg allPackages) ∧
      docB.blocks.map (fun b => (b.kind, b.text)) =
        contentB.flatMap (nodeTexts module currentPkg allPackages) ∧
      (∀ cfgB : σ, ∃ docB2 : Doc σ ρ,
        NewDoc Inc cfgB currentPkg allPackages contentB module = some docB2 ∧
        docB2.blocks.map (fun b => (b.kind, b.text)) =
          docB.blocks.map (fun b => (b.kind, b.text))) := by
  obtain ⟨bsA, cfgA, hrunA, hkA⟩ :=
    contentBlocks_kinds Inc module currentPkg allPackages contentA cfg hA
  obtain ⟨bsB, cfgB, hrunB, hkB⟩ :=
    contentBlocks_kinds Inc module currentPkg allPackages contentB cfgA hB
  obtain ⟨bsA2, cfgA2, hrunA2, htA⟩ :=
    contentBlocks_texts Inc module currentPkg allPackages contentA cfg hA
  obtain ⟨bsB2, cfgB2, hrunB2, htB⟩ :=
    contentBlocks_texts Inc module currentPkg allPackages contentB cfgA hB
  have hA2 : bsA2 = bsA := by
    have := (hrunA2 []).symm.trans (hrunA [])
    simp only [List.nil_append, Option.some.injEq, Prod.mk.injEq] at this
    exact this.1
  have hB2 : bsB2 = bsB := by
    have := (hrunB2 []).symm.trans (hrunB [])
    simp only [List.nil_append, Option.some.injEq, Prod.mk.injEq] at this
    exact this.1
  subst hA2
  subst hB2
  refine ⟨⟨cfgA, bsA2⟩, ⟨cfgB, bsB2⟩, ?_, ?_, ?_, hkA, hkB, by simp [hkA, hkB], htA, htB, ?_⟩
  · rw [NewDoc_eq, hrunA]; rfl
  · rw [NewDoc_eq, hrunB]; rfl
  · rw [NewDoc_eq, contentBlocks_append, hrunA]
    simp only [Option.some_bind, hrunB, Option.map_some', List.nil_append]
  · intro cfgB0
    obtain ⟨bs3, cfg3, hrun3, ht3⟩ :=
      contentBlocks_texts Inc module currentPkg allPackages contentB cfgB0 hB
    refine ⟨⟨cfg3, bs3⟩, ?_, ht3.trans htB.symm⟩
    rw [NewDoc_eq, hrun3]; rfl

/-- Witness of C10 (amended): a code block and a heading, followed by a list
of two items, a node the pass has no case for, and a paragraph. -/
theorem NewDoc_concat_witness :
    (NewDoc counterInc 0 (emptyPkg "p") []
        ([comment.Block.Code "x := 1", comment.Block.Heading [comment.Text.Plain "H"]] ++
          [twoItemList, comment.Block.Other, comment.Block.Paragraph [comment.Text.Italic "i"]])
        "").map (fun d => d.blocks.map Block.kind) =
      some [BlockKind.CodeBlock, BlockKind.HeaderBlock, BlockKind.ListBlock,
        BlockKind.ListBlock, BlockKind.ListBlock, BlockKind.ParagraphBlock] := by
  obtain ⟨docA, docB, _, _, hAB, _, _, hk, _⟩ :=
    NewDoc_concat counterInc "" (emptyPkg "p") [] 0
      [comment.Block.Code "x := 1", comment.Block.Heading [comment.Text.Plain "H"]]
      [twoItemList, comment.Block.Other, comment.Block.Paragraph [comment.Text.Italic "i"]]
      (by decide) (by decide)
  rw [hAB]
  exact congrArg some hk

end PassClaims

/-! ## Lemmas on the inline conversion -/

theorem textBlocks_append (module : String) (currentPkg : doc.Package)
    (allPackages : List doc.Package) (xs ys : List comment.Text) :
    textBlocks module currentPkg allPackages (xs ++ ys) =
      textBlocks module currentPkg allPackages xs ++
        textBlocks module currentPkg allPackages ys := by
  induction xs with
  | nil => simp [textBlocks]
  | cons x rest ih => simp [textBlocks, ih]

theorem lineBlocks_kinds (module : String) (currentPkg : doc.Package)
    (allPackages : List doc.Package) (x : comment.Text) :
    (lineBlocks module currentPkg allPackages x).map TextBlock.Kind = inlineKinds x := by
  cases x with
  | Plain s => rfl
  | Italic s => rfl
  | Link l => cases l; rfl
  | DocLink l => cases l; rfl
  | Other => rfl

theorem textBlocks_kinds (module : String) (currentPkg : doc.Package)
    (allPackages : List doc.Package) (xs : List comment.Text) :
    (textBlocks module currentPkg allPackages xs).map TextBlock.Kind =
      xs.flatMap inlineKinds := by
  induction xs with
  | nil => simp [textBlocks]
  | cons x rest ih => simp [textBlocks, ih, lineBlocks_kinds]

theorem inlineKinds_length (x : comment.Text) :
    (inlineKinds x).length = if recognized x = true then 1 else 0 := by
  cases x <;> simp [inlineKinds, recognized]

theorem inlineKinds_count (xs : List comment.Text) :
    (xs.flatMap inlineKinds).length = (xs.filter recognized).length := by
  induction xs with
  | nil => rfl
  | cons x rest ih =>
    have hx := inlineKinds_length x
    by_cases hr : recognized x = true
    · rw [List.flatMap_cons, List.length_append, hx, ih, List.filter_cons]
      simp [hr, Nat.add_comm]
    · rw [List.flatMap_cons, List.length_append, hx, ih, List.filter_cons]
      simp [hr]

theorem textBlocks_link (module : String) (currentPkg : doc.Package)
    (allPackages : List doc.Package) (l : comment.Link) :
    textBlocks module currentPkg allPackages [comment.Text.Link l] =
      [NewLinkTextBlock LinkText (textBlocks module currentPkg allPackages l.Text) "" l.URL] := by
  cases l
  simp [textBlocks, lineBlocks, comment.Link.Text, comment.Link.URL]

theorem lineBlocks_subset (module : String) (currentPkg : doc.Package)
    (allPackages : List doc.Package) (x : comment.Text) (xs : List comment.Text)
    (hx : x ∈ xs) (b : TextBlock) (hb : b ∈ lineBlocks module currentPkg allPackages x) :
    b ∈ textBlocks module currentPkg allPackages xs := by
  induction xs with
  | nil => cases hx
  | cons y rest ih =>
    simp only [textBlocks, List.mem_append]
    rcases List.mem_cons.1 hx with h | h
    · left; rw [← h]; exact hb
    · right; exact ih h

mutual
theorem textBlocks_no_docLink (module : String) (currentPkg : doc.Package)
    (allPackages : List doc.Package) (module2 : String) (currentPkg2 : doc.Package)
    (allPackages2 : List doc.Package) :
    ∀ ts : List comment.Text, textsHaveDocLink ts = false →
      textBlocks module2 currentPkg2 allPackages2 ts =
        textBlocks module currentPkg allPackages ts
  | [], _ => by simp [textBlocks]
  | t :: rest, h => by
    simp only [textsHaveDocLink, Bool.or_eq_false_iff] at h
    simp only [textBlocks]
    rw [lineBlocks_no_docLink module currentPkg allPackages module2 currentPkg2 allPackages2 t h.1,
      textBlocks_no_docLink module currentPkg allPackages module2 currentPkg2 allPackages2
        rest h.2]
theorem lineBlocks_no_docLink (module : String) (currentPkg : doc.Package)
    (allPackages : List doc.Package) (module2 : String) (currentPkg2 : doc.Package)
    (allPackages2 : List doc.Package) :
    ∀ t : comment.Text, textHasDocLink t = false →
      lineBlocks module2 currentPkg2 allPackages2 t =
        lineBlocks module currentPkg allPackages t
  | comment.Text.Plain _, _ => by simp [lineBlocks]
  | comment.Text.Italic _, _ => by simp [lineBlocks]
  | comment.Text.Other, _ => by simp [lineBlocks]
  | comment.Text.DocLink _, h => by simp [textHasDocLink] at h
  | comment.Text.Link (comment.Link.mk _ text _), h => by
    simp only [textHasDocLink] at h
    simp only [lineBlocks]
    rw [textBlocks_no_docLink module currentPkg allPackages module2 currentPkg2 allPackages2
      text h]
end

/-! ## Claims on code blocks and the inline conversion -/

/-- C11: for a code-block node with text `s`, `NewDoc` emits one block of kind
Code whose Text is exactly one span, of kind plain, whose text is `s`
unchanged, with empty path and href and no nested sequence. -/
theorem NewDoc_code_block {σ ρ : Type} (Inc : σ → Int → ρ × σ) (module : String)
    (currentPkg : doc.Package) (allPackages : List doc.Package) (cfg : σ) (s : String) :
    NewDoc Inc cfg currentPkg allPackages [comment.Block.Code s] module =
      some ⟨(Inc cfg 0).2,
        [NewBlock (Inc cfg 0).1 BlockKind.CodeBlock
          (Text.mk [TextBlock.mk "plain" s "" "" none])]⟩ ∧
    (∀ blocks : List (Block ρ),
      blockStep Inc module currentPkg allPackages blocks cfg (comment.Block.Code s) =
        some (blocks ++ [NewBlock (Inc cfg 0).1 BlockKind.CodeBlock
          (Text.mk [TextBlock.mk "plain" s "" "" none])], (Inc cfg 0).2)) :=
  ⟨rfl, fun _ => rfl⟩

/-- C12, as stated, fails: a hyperlink whose inner text holds a documentation
link to `T` gives a span whose nested anchor is "type T" against a package
declaring the type `T` and " T" against a package without symbols, so the
span is not the same for every current package. -/
theorem textBlocks_link_counterexample :
    innerHrefs (textBlocks "" typePkg []
        [comment.Text.Link (comment.Link.mk false
          [comment.Text.DocLink (comment.DocLink.mk [] "" "" "T")] "https://go.dev")]) =
      [["type T"]] ∧
    innerHrefs (textBlocks "" (emptyPkg "example.com/mod/pkg") []
        [comment.Text.Link (comment.Link.mk false
          [comment.Text.DocLink (comment.DocLink.mk [] "" "" "T")] "https://go.dev")]) =
      [[" T"]] ∧
    [["type T"]] ≠ [[" T"]] := by
  decide

/-- C12, amended: for a hyperlink node with URL `u` and inner text `ts`,
`textBlocks` produces one span of kind link whose href is `u` verbatim, whose
path is empty, and whose nested sequence is `textBlocks(ts)` for the same
current package, packages and module; kind, href and path never depend on
them, and the whole span is the same for all of them when `ts` holds no
documentation link at any depth. An Italic run with text `s` in `ts` gives an
italic span with text `s` in the nested sequence. -/
theorem textBlocks_link_span (module : String) (currentPkg : doc.Package)
    (allPackages : List doc.Package) (l : comment.Link) :
    textBlocks module currentPkg allPackages [comment.Text.Link l] =
      [TextBlock.mk "link" "" "" l.URL
        (some (Text.mk (textBlocks module currentPkg allPackages l.Text)))] ∧
    (textsHaveDocLink l.Text = false →
      ∀ (module2 : String) (currentPkg2 : doc.Package) (allPackages2 : List doc.Package),
        textBlocks module2 currentPkg2 allPackages2 [comment.Text.Link l] =
          textBlocks module currentPkg allPackages [comment.Text.Link l]) ∧
    (∀ s : String, comment.Text.Italic s ∈ l.Text →
      TextBlock.mk "italic" s "" "" none ∈ textBlocks module currentPkg allPackages l.Text) := by
  refine ⟨?_, ?_, ?_⟩
  · rw [textBlocks_link]; rfl
  · intro h module2 currentPkg2 allPackages2
    rw [textBlocks_link, textBlocks_link,
      textBlocks_no_docLink module currentPkg allPackages module2 currentPkg2 allPackages2
        l.Text h]
  · intro s hs
    exact lineBlocks_subset module currentPkg allPackages (comment.Text.Italic s) l.Text hs _
      (by simp [lineBlocks, NewTextBlock, ItalicText])

/-- Witness of C12 (amended): a hyperlink around an italic run. -/
theorem textBlocks_link_span_witness :
    textBlocks "example.com/mod/" typePkg [recvPkg]
        [comment.Text.Link (comment.Link.mk false [comment.Text.Italic "home"] "https://go.dev")] =
      textBlocks "" (emptyPkg "") []
        [comment.Text.Link (comment.Link.mk false [comment.Text.Italic "home"] "https://go.dev")] :=
  (textBlocks_link_span "" (emptyPkg "") []
    (comment.Link.mk false [comment.Text.Italic "home"] "https://go.dev")).2.1 (by decide)
    "example.com/mod/" typePkg [recvPkg]

/-- C13: inline conversion preserves order and drops only unrecognized nodes:
`textBlocks(xs ++ ys) = textBlocks(xs) ++ textBlocks(ys)`; a Plain, Italic,
Link or DocLink node yields exactly one span, of kind plain, italic, link or
docLink (Plain and Italic carrying the literal text), a node of another kind
yields none, and the output length is the number of recognized nodes. -/
theorem textBlocks_homomorphism (module : String) (currentPkg : doc.Package)
    (allPackages : List doc.Package) (xs ys : List comment.Text) :
    textBlocks module currentPkg allPackages (xs ++ ys) =
      textBlocks module currentPkg allPackages xs ++
        textBlocks module currentPkg allPackages ys ∧
    (∀ s : String, textBlocks module currentPkg allPackages [comment.Text.Plain s] =
      [TextBlock.mk "plain" s "" "" none]) ∧
    (∀ s : String, textBlocks module currentPkg allPackages [comment.Text.Italic s] =
      [TextBlock.mk "italic" s "" "" none]) ∧
    (∀ l : comment.Link,
      (textBlocks module currentPkg allPackages [comment.Text.Link l]).map TextBlock.Kind =
        ["link"]) ∧
    (∀ l : comment.DocLink,
      (textBlocks module currentPkg allPackages [comment.Text.DocLink l]).map TextBlock.Kind =
        ["docLink"]) ∧
    textBlocks module currentPkg allPackages [comment.Text.Other] = [] ∧
    (textBlocks module currentPkg allPackages xs).map TextBlock.Kind = xs.flatMap inlineKinds ∧
    (textBlocks module currentPkg allPackages xs).length = (xs.filter recognized).length := by
  refine ⟨textBlocks_append module currentPkg allPackages xs ys, fun _ => rfl, fun _ => rfl,
    ?_, ?_, rfl, textBlocks_kinds module currentPkg allPackages xs, ?_⟩
  · intro l
    rw [textBlocks_kinds]; rfl
  · intro l
    rw [textBlocks_kinds]; rfl
  · have hlen := congrArg List.length (textBlocks_kinds module currentPkg allPackages xs)
    rw [List.length_map] at hlen
    rw [hlen, inlineKinds_count]

/-! ## Claims on completion and on explicit self-references -/

theorem itemCommentText_abort (content : List comment.Block) :
    ∀ commentText : List comment.Text, content.all isParagraph = false →
      itemCommentText commentText content = none := by
  induction content with
  | nil => intro _ h; simp at h
  | cons b rest ih =>
    intro commentText h
    cases b with
    | Paragraph text =>
      have hrest : rest.all isParagraph = false := by simpa [isParagraph] using h
      simp [itemCommentText, ih (commentText ++ text) hrest]
    | Code _ => simp [itemCommentText]
    | Heading _ => simp [itemCommentText]
    | List _ _ _ => simp [itemCommentText]
    | Other => simp [itemCommentText]

section Completion

variable {σ ρ : Type} (Inc : σ → Int → ρ × σ) (module : String) (currentPkg : doc.Package)
  (allPackages : List doc.Package)

theorem listItems_abort (items : List comment.ListItem) :
    ∀ (text : List TextBlock) (blocks : List (Block ρ)) (cfg : σ),
      items.all onlyParagraphs = false →
      listItems Inc module currentPkg allPackages items text blocks cfg = none := by
  induction items with
  | nil => intro _ _ _ h; simp at h
  | cons item rest ih =>
    intro text blocks cfg h
    by_cases hi : onlyParagraphs item = true
    · have hrest : rest.all onlyParagraphs = false := by simpa [hi] using h
      have hc := itemCommentText_paragraphs item.Content [] hi
      simp only [listItems, hc]
      exact ih _ _ _ hrest
    · have hi2 : item.Content.all isParagraph = false := by
        simpa [onlyParagraphs] using hi
      simp [listItems, itemCommentText_abort item.Content [] hi2]

theorem blockStep_abort (block : comment.Block) (blocks : List (Block ρ)) (cfg : σ)
    (h : wellFormed block = false) :
    blockStep Inc module currentPkg allPackages blocks cfg block = none := by
  cases block with
  | Code _ => simp [wellFormed] at h
  | Heading _ => simp [wellFormed] at h
  | Paragraph _ => simp [wellFormed] at h
  | Other => simp [wellFormed] at h
  | List forceBefore forceBetween items =>
    have hl : items.all onlyParagraphs = false := by simpa [wellFormed] using h
    simp only [blockStep, listItems_abort Inc module currentPkg allPackages items _ _ _ hl]

theorem contentBlocks_abort (content : List comment.Block) :
    ∀ (blocks : List (Block ρ)) (cfg : σ), content.all wellFormed = false →
      contentBlocks Inc module currentPkg allPackages content blocks cfg = none := by
  induction content with
  | nil => intro _ _ h; simp at h
  | cons block rest ih =>
    intro blocks cfg h
    by_cases hb : wellFormed block = true
    · have hrest : rest.all wellFormed = false := by simpa [hb] using h
      obtain ⟨bs, cfg2, hstep, _⟩ :=
        blockStep_kinds Inc module currentPkg allPackages block cfg hb
      simp only [contentBlocks, hstep]
      exact ih _ _ hrest
    · have hb2 : wellFormed block = false := by simpa using hb
      simp only [contentBlocks, blockStep_abort Inc module currentPkg allPackages block _ _ hb2]

/-- C14, as stated, fails: on a list whose item holds a code block the type
assertion aborts the pass and `NewDoc` returns no block sequence. -/
theorem NewDoc_abort_counterexample :
    (NewDoc counterInc 0 (emptyPkg "p") [] [codeItemList] "").isSome = false ∧
    (NewDoc counterInc 0 (emptyPkg "p") []
      [comment.Block.Paragraph [comment.Text.Plain "a"], codeItemList] "").isSome = false := by
  decide

/-- C14, amended: the block-building pass of `NewDoc` completes and returns a
block sequence exactly for the input trees in which every content element of
every list item is a paragraph; on a list item holding another node, such as
a code block, the pass aborts. -/
theorem NewDoc_completes_iff (cfg : σ) (content : List comment.Block) :
    (NewDoc Inc cfg currentPkg allPackages content module).isSome = content.all wellFormed := by
  rw [NewDoc_eq]
  cases h : content.all wellFormed with
  | true =>
    obtain ⟨bs, cfg2, hrun, _⟩ :=
      contentBlocks_kinds Inc module currentPkg allPackages content cfg h
    rw [hrun]; rfl
  | false =>
    rw [contentBlocks_abort Inc module currentPkg allPackages content _ _ h]; rfl

end Completion

theorem scanPackages_first (link : comment.DocLink) (pkg : doc.Package)
    (after : List doc.Package)
    (hpath : pkg.ImportPath = link.ImportPath)
    (hlook : pkg.LookupSym link.Recv link.Name = true) :
    ∀ before : List doc.Package,
      (∀ p ∈ before,
        ¬ (p.ImportPath = link.ImportPath ∧ p.LookupSym link.Recv link.Name = true)) →
      scanPackages link (before ++ pkg :: after) = getIdentifierType link pkg := by
  intro before
  induction before with
  | nil => intro _; simp [scanPackages, hpath, hlook]
  | cons p rest ih =>
    intro h
    have hp := h p (List.mem_cons_self p rest)
    simp only [List.cons_append, scanPackages, if_neg hp]
    exact ih (fun q hq => h q (List.mem_cons_of_mem p hq))

/-- C15, as stated, fails: with another package of the same import path and a
succeeding lookup placed before the current package, the explicit
self-reference resolves against that package ("const") and not against the
current one ("type"). -/
theorem getImportType_self_counterexample :
    typeNPkg ∈ [constNPkg, typeNPkg] ∧
    typeNPkg.LookupSym "" "N" = true ∧
    getImportType (comment.DocLink.mk [] "example.com/mod/pkg" "" "N") typeNPkg
      [constNPkg, typeNPkg] = "const" ∧
    getImportType (comment.DocLink.mk [] "" "" "N") typeNPkg [constNPkg, typeNPkg] = "type" ∧
    getIdentifierType (comment.DocLink.mk [] "example.com/mod/pkg" "" "N") typeNPkg = "type" ∧
    "const" ≠ "type" := by
  refine ⟨by simp, rfl, by decide, by decide, by decide, by decide⟩

/-- C15, amended: for a link whose import path is non-empty and equal to the
current package's import path, when the current package is a member of
`allPackages`, its symbol lookup for (receiver, name) succeeds, and no package
before it in `allPackages` has that import path with a succeeding lookup,
`getImportType` returns `getIdentifierType(link, currentPkg)`, the kind it
returns for the same link with an empty import path. -/
theorem getImportType_self_reference (text : List comment.Text) (importPath recv name : String)
    (currentPkg : doc.Package) (before after : List doc.Package)
    (hne : importPath ≠ "") (hpath : importPath = currentPkg.ImportPath)
    (hlook : currentPkg.LookupSym recv name = true)
    (hfirst : ∀ p ∈ before, ¬ (p.ImportPath = importPath ∧ p.LookupSym recv name = true)) :
    getImportType (comment.DocLink.mk text importPath recv name) currentPkg
        (before ++ currentPkg :: after) =
      getIdentifierType (comment.DocLink.mk text importPath recv name) currentPkg ∧
    getImportType (comment.DocLink.mk text importPath recv name) currentPkg
        (before ++ currentPkg :: after) =
      getImportType (comment.DocLink.mk text "" recv name) currentPkg
        (before ++ currentPkg :: after) := by
  have h1 : getImportType (comment.DocLink.mk text importPath recv name) currentPkg
      (before ++ currentPkg :: after) =
      getIdentifierType (comment.DocLink.mk text importPath recv name) currentPkg := by
    unfold getImportType
    rw [if_neg (by simpa [comment.DocLink.ImportPath] using hne)]
    exact scanPackages_first (comment.DocLink.mk text importPath recv name) currentPkg after
      hpath.symm hlook before hfirst
  refine ⟨h1, ?_⟩
  rw [h1]
  rfl

/-- Witness of C15 (amended): the current package comes after a package of
another import path. -/
theorem getImportType_self_reference_witness :
    getImportType (comment.DocLink.mk [] "example.com/mod/pkg" "" "N") typeNPkg
        ([emptyPkg "example.com/mod/other"] ++ typeNPkg :: [constNPkg]) =
      getIdentifierType (comment.DocLink.mk [] "example.com/mod/pkg" "" "N") typeNPkg :=
  (getImportType_self_reference [] "example.com/mod/pkg" "" "N" typeNPkg
    [emptyPkg "example.com/mod/other"] [constNPkg] (by decide) rfl rfl
    (by
      intro p hp
      rw [List.mem_singleton.1 hp]
      decide)).1

/-! ## The ordering keys -/

section Keys

variable {σ ρ : Type} (Inc : σ → Int → ρ × σ) (module : String) (currentPkg : doc.Package)
  (allPackages : List doc.Package)

end Keys

/-- C19, as stated, fails for the type case: in a package declaring a function
`N` without receiver and a type `N`, the link to `N` with receiver `R` has
kind "type", but the same link with the receiver cleared has kind "func". -/
theorem getIdentifierType_receiver_counterexample :
    valuesMatch "N" funcAndTypePkg.Consts = false ∧
    valuesMatch "N" funcAndTypePkg.Vars = false ∧
    funcsMatch "R" "N" funcAndTypePkg.Funcs = false ∧
    typesMatch "N" funcAndTypePkg.Types = true ∧
    getIdentifierType (comment.DocLink.mk [] "" "R" "N") funcAndTypePkg = "type" ∧
    getIdentifierType (comment.DocLink.mk [] "" "" "N") funcAndTypePkg = "func" ∧
    "type" ≠ "func" := by
  decide

/-- C19, amended: for a link with non-empty receiver `R` and name `N`, if `N`
is among the names of some constant the kind is "const"; if of no constant
but of some variable it is "var"; both as for the link with the receiver
cleared. If there is no such constant, variable or function `(R, N)` but a
type named `N`, the kind is "type", which is the kind of the link with the
receiver cleared only when the package has no function `N` without receiver.
The anchor is the kind, `R` and `N` joined by single spaces. -/
theorem getIdentifierType_receiver (text : List comment.Text) (importPath recv name : String)
    (pkg : doc.Package) (hrecv : recv ≠ "") :
    ((∃ c ∈ pkg.Consts, name ∈ c.Names) →
      getIdentifierType (comment.DocLink.mk text importPath recv name) pkg = "const" ∧
      getIdentifierType (comment.DocLink.mk text importPath "" name) pkg = "const") ∧
    ((¬ ∃ c ∈ pkg.Consts, name ∈ c.Names) → (∃ v ∈ pkg.Vars, name ∈ v.Names) →
      getIdentifierType (comment.DocLink.mk text importPath recv name) pkg = "var" ∧
      getIdentifierType (comment.DocLink.mk text importPath "" name) pkg = "var") ∧
    ((¬ ∃ c ∈ pkg.Consts, name ∈ c.Names) → (¬ ∃ v ∈ pkg.Vars, name ∈ v.Names) →
      (¬ ∃ f ∈ pkg.Funcs, f.Recv = recv ∧ f.Name = name) → (∃ t ∈ pkg.Types, t.Name = name) →
      getIdentifierType (comment.DocLink.mk text importPath recv name) pkg = "type" ∧
      ((¬ ∃ f ∈ pkg.Funcs, f.Recv = "" ∧ f.Name = name) →
        getIdentifierType (comment.DocLink.mk text importPath "" name) pkg = "type")) ∧
    (∀ (module : String) (currentPkg : doc.Package) (allPackages : List doc.Package)
      (kind : String),
      getImportType (comment.DocLink.mk text importPath recv name) currentPkg allPackages =
        kind →
      (textBlocks module currentPkg allPackages
        [comment.Text.DocLink (comment.DocLink.mk text importPath recv name)]).map
        TextBlock.Href = [kind ++ " " ++ recv ++ " " ++ name]) ∧
    (importPath = "" → ∀ allPackages : List doc.Package,
      getImportType (comment.DocLink.mk text importPath recv name) pkg allPackages =
        getIdentifierType (comment.DocLink.mk text importPath recv name) pkg) := by
  refine ⟨?_, ?_, ?_, ?_, ?_⟩
  · intro hc
    have hc2 := (valuesMatch_iff name pkg.Consts).2 hc
    simp [getIdentifierType, comment.DocLink.Name, hc2]
  · intro hc hv
    have hc2 : valuesMatch name pkg.Consts ≠ true := fun h => hc ((valuesMatch_iff _ _).1 h)
    have hv2 := (valuesMatch_iff name pkg.Vars).2 hv
    simp [getIdentifierType, comment.DocLink.Name, hc2, hv2]
  · intro hc hv hf ht
    have hc2 : valuesMatch name pkg.Consts ≠ true := fun h => hc ((valuesMatch_iff _ _).1 h)
    have hv2 : valuesMatch name pkg.Vars ≠ true := fun h => hv ((valuesMatch_iff _ _).1 h)
    have hf2 : funcsMatch recv name pkg.Funcs ≠ true := fun h => hf ((funcsMatch_iff _ _ _).1 h)
    have ht2 := (typesMatch_iff name pkg.Types).2 ht
    refine ⟨by simp [getIdentifierType, comment.DocLink.Name, comment.DocLink.Recv, hc2, hv2,
      hf2, ht2], ?_⟩
    intro hf0
    have hf3 : funcsMatch "" name pkg.Funcs ≠ true := fun h => hf0 ((funcsMatch_iff _ _ _).1 h)
    simp [getIdentifierType, comment.DocLink.Name, comment.DocLink.Recv, hc2, hv2, hf3, ht2]
  · intro module currentPkg allPackages kind hk
    rw [docLink_href_map, hk]
    simp [docLinkHref, comment.DocLink.Recv, comment.DocLink.Name, hrecv, String.append_assoc]
  · intro hp allPackages
    simp [getImportType, comment.DocLink.ImportPath, hp]

/-- Witness of C19 (amended): a constant `N` linked with receiver `R` in the
current package has the anchor "const R N". -/
theorem getIdentifierType_receiver_witness :
    (textBlocks "" constNPkg []
      [comment.Text.DocLink (comment.DocLink.mk [] "" "R" "N")]).map TextBlock.Href =
      ["const" ++ " " ++ "R" ++ " " ++ "N"] :=
  (getIdentifierType_receiver [] "" "R" "N" constNPkg (by decide)).2.2.2.1
    "" constNPkg [] "const"
    (((getIdentifierType_receiver [] "" "R" "N" constNPkg (by decide)).2.2.2.2 rfl []).trans
      ((getIdentifierType_receiver [] "" "R" "N" constNPkg (by decide)).1
        ⟨⟨["N"]⟩, by simp [constNPkg], by simp⟩).1)

end lang

/-! ## Claims on `renderer.go` -/

theorem StringMap_get_set (m : StringMap) (key val : String) :
    (m.set key val).get key = some val := by
  induction m with
  | nil => simp [StringMap.set, StringMap.get]
  | cons e rest ih =>
    obtain ⟨k, v⟩ := e
    by_cases h : k = key
    · simp [StringMap.set, StringMap.get, h]
    · simp [StringMap.set, StringMap.get, h, ih]

/-- C17 fails on the code: an override whose name is predefined is written
into the shared template table. After `NewRenderer` with the single option
`WithTemplateOverride(name, tmpl)` the table entry of `name` is `tmpl`,
whatever the table held; so the predefined entry "file" is replaced by the
override text. -/
theorem NewRenderer_overwrites_predefined :
    (∀ (parseOk : String → String → Bool) (templates : StringMap) (name tmpl : String),
      (NewRenderer parseOk () templates [WithTemplateOverride name tmpl]).2.get name =
        some tmpl) ∧
    StringMap.get [("file", "predefined file"), ("package", "predefined package")] "file" =
      some "predefined file" ∧
    (NewRenderer (fun _ _ => true) ()
      [("file", "predefined file"), ("package", "predefined package")]
      [WithTemplateOverride "file" "custom"]).2 =
      [("file", "custom"), ("package", "predefined package")] := by
  refine ⟨?_, by decide, by decide⟩
  intro parseOk templates name tmpl
  have hset := StringMap_get_set templates name tmpl
  simp only [NewRenderer, applyOpts, WithTemplateOverride, StringMap.set, addOverrides]
  cases parseTemplates parseOk [(name, tmpl)] (templates.set name tmpl) [] with
  | error err => exact hset
  | ok t => exact hset

end Gomarkdoc

